import Mathlib

/-!
# AS7341 firmware: sampling, aggregation and inference

A shallow embedding of

* `arduino-tensor/src/NeuralNetwork.h` (class `NeuralNetwork`: `relu`, `softmax`,
  the constructor and `predict`),
* `arduino-tensor/src/main.cpp` (`l2_normalize`),
* `AS7341/src/main.cpp` (`loop`: command handling, interval check, the
  five-sample aggregation and the emitted records),

followed by the properties proved about them.

Conventions of the embedding.

* A C `float` is read as an element of a linearly ordered field `α`; the
  transcendental library functions `exp` and `sqrt` are parameters of the
  definitions, instantiated with `Real.exp` and `Real.sqrt` in the theorems
  over the reals. The definitions themselves are computable and can be run
  over `ℚ`; there `exp` is instantiated with `expBinary32`, a model of the
  library function with its result stored in a `float`, to show where
  rounding and underflow of `exp` change what the code returns.
* A C array reached through a pointer (`const float*`, `float*`) is a function
  `Nat → α` from offsets to cells; an in-place write is `Function.update`.
* A counted `for` loop is `forLoop`.
* `int` sizes and indices are natural numbers (a non-positive size runs no
  iteration, exactly like size `0`).
-/

universe u

namespace AS7341

/-- Counted loop: `forLoop n body s` is the state reached from `s` by
`for (int i = 0; i < n; i++) body(i)`; iteration `0` runs first. -/
def forLoop {σ : Type u} : Nat → (Nat → σ → σ) → σ → σ
  | 0, _, s => s
  | n + 1, body, s => body n (forLoop n body s)

/-! ## `NeuralNetwork.h` -/

section NeuralNetworkCode

variable {α : Type} [LinearOrderedField α]

/-- The private data members of `class NeuralNetwork`: four non-owning
pointers to constant tables and the three topology sizes. -/
structure NeuralNetwork (α : Type) where
  weights_hidden : Nat → α
  biases_hidden : Nat → α
  weights_output : Nat → α
  biases_output : Nat → α
  input_size : Nat
  hidden_size : Nat
  output_size : Nat

/-- The constructor `NeuralNetwork(inputs, hidden, outputs, w_h, b_h, w_o, b_o)`:
a member-initialiser list and an empty body. -/
def NeuralNetwork.new (inputs hidden outputs : Nat) (w_h b_h w_o b_o : Nat → α) :
    NeuralNetwork α :=
  { weights_hidden := w_h, biases_hidden := b_h,
    weights_output := w_o, biases_output := b_o,
    input_size := inputs, hidden_size := hidden, output_size := outputs }

/-- The activation `float relu(float x)`, which returns `x > 0 ? x : 0`. -/
def relu (x : α) : α := if x > 0 then x else 0

/-- First loop of `softmax`: `max_val = input[0]`, then for `i = 1 .. length-1`,
`if (input[i] > max_val) max_val = input[i]`. -/
def softmaxMax (input : Nat → α) (length : Nat) : α :=
  forLoop (length - 1)
    (fun k max_val => if input (k + 1) > max_val then input (k + 1) else max_val)
    (input 0)

/-- Second loop of `softmax`, on the pair (array, `sum`):
`input[i] = exp(input[i] - max_val); sum += input[i];`. -/
def softmaxExp (exp : α → α) (max_val : α) (length : Nat) (input : Nat → α) :
    (Nat → α) × α :=
  forLoop length
    (fun i st =>
      let buf := Function.update st.1 i (exp (st.1 i - max_val))
      (buf, st.2 + buf i))
    (input, 0)

/-- Third loop of `softmax`: `input[i] /= sum`. -/
def softmaxNormalize (sum : α) (length : Nat) (input : Nat → α) : Nat → α :=
  forLoop length (fun i buf => Function.update buf i (buf i / sum)) input

/-- The function `void softmax(float* input, int length)`: the array after the call. -/
def softmax (exp : α → α) (input : Nat → α) (length : Nat) : Nat → α :=
  let max_val := softmaxMax input length
  let st := softmaxExp exp max_val length input
  softmaxNormalize st.2 length st.1

/-- The denominator `sum` that `softmax` divides by. -/
def softmaxSum (exp : α → α) (input : Nat → α) (length : Nat) : α :=
  (softmaxExp exp (softmaxMax input length) length input).2

/-- Step 4 of `predict` on the pair (`best_class`, `highest_prob`): the
left-to-right scan `if (output_data[i] > highest_prob) ...` for `i = 1 .. n-1`. -/
def argmaxScan (output_data : Nat → α) (n : Nat) : Nat × α :=
  forLoop (n - 1)
    (fun k st =>
      if output_data (k + 1) > st.2 then (k + 1, output_data (k + 1)) else st)
    (0, output_data 0)

/-- The value of `best_class` after the scan. -/
def argmax (output_data : Nat → α) (n : Nat) : Nat := (argmaxScan output_data n).1

/-- Capacity of the stack buffer `float hidden_layer[16]`. -/
def HIDDEN_CAPACITY : Nat := 16

/-- Inner loop of step 1 for hidden unit `h`: `sum = biases_hidden[h]`, then
`sum += input_data[i] * weights_hidden[i * hidden_size + h]`. -/
def hiddenSum (nn : NeuralNetwork α) (input_data : Nat → α) (h : Nat) : α :=
  forLoop nn.input_size
    (fun i sum => sum + input_data i * nn.weights_hidden (i * nn.hidden_size + h))
    (nn.biases_hidden h)

/-- Step 1 of `predict` on the pair (`hidden_layer`, indices written so far):
`hidden_layer[h] = relu(sum)` for `h = 0 .. hidden_size-1`. The buffer starts
with the arbitrary contents `stack` of the uninitialised stack array; the
second component records every index `h` of a write `hidden_layer[h] = ...`. -/
def hiddenPass (nn : NeuralNetwork α) (input_data stack : Nat → α) :
    (Nat → α) × List Nat :=
  forLoop nn.hidden_size
    (fun h st => (Function.update st.1 h (relu (hiddenSum nn input_data h)), st.2 ++ [h]))
    (stack, [])

/-- Inner loop of step 2 for output unit `o`: `sum = biases_output[o]`, then
`sum += hidden_layer[h] * weights_output[h * output_size + o]`. -/
def outputSum (nn : NeuralNetwork α) (hidden_layer : Nat → α) (o : Nat) : α :=
  forLoop nn.hidden_size
    (fun h sum => sum + hidden_layer h * nn.weights_output (h * nn.output_size + o))
    (nn.biases_output o)

/-- Step 2 of `predict`: `output_data[o] = sum` (raw logits). -/
def outputPass (nn : NeuralNetwork α) (hidden_layer output_data : Nat → α) : Nat → α :=
  forLoop nn.output_size
    (fun o out => Function.update out o (outputSum nn hidden_layer o))
    output_data

/-- What a call of `predict` leaves behind: the returned `best_class`, the
caller's array `output_data`, and the indices at which `hidden_layer` was
written. -/
structure PredictResult (α : Type) where
  best_class : Nat
  output_data : Nat → α
  hidden_writes : List Nat

/-- The method `int predict(const float* input_data, float* output_data)`. -/
def predict (exp : α → α) (nn : NeuralNetwork α) (input_data output_data stack : Nat → α) :
    PredictResult α :=
  let hid := hiddenPass nn input_data stack
  let logits := outputPass nn hid.1 output_data
  let probs := softmax exp logits nn.output_size
  { best_class := argmax probs nn.output_size
    output_data := probs
    hidden_writes := hid.2 }

end NeuralNetworkCode

/-! ## `arduino-tensor/src/main.cpp` -/

section NormalizeCode

variable {α : Type} [LinearOrderedField α]

/-- First loop of `l2_normalize`: `sum_sq += vector[i] * vector[i]`, from `0`. -/
def sumSquares (vector : Nat → α) (length : Nat) : α :=
  forLoop length (fun i sum_sq => sum_sq + vector i * vector i) 0

/-- The function `void l2_normalize(float* vector, int length)`: the array after
the call. -/
def l2_normalize (sqrt : α → α) (vector : Nat → α) (length : Nat) : Nat → α :=
  let sum_sq := sumSquares vector length
  let magnitude := sqrt sum_sq
  if magnitude > 0 then
    forLoop length (fun i v => Function.update v i (v i / magnitude)) vector
  else vector

/-- The test vector `[3, 4, 0, ..., 0]` of the specification. -/
def vec34 : Nat → α := fun i => if i = 0 then 3 else if i = 1 then 4 else 0

end NormalizeCode

/-! ## `AS7341/src/main.cpp`

One call of `loop()` is a function of the global state and of what the
environment supplies during the call; it returns the new state and the
sequence of effects (serial output, LED switching, delays) in program order.
`unsigned long` is 32 bits wide, `uint16_t` 16 bits. -/

/-- An observable action of `loop()`. -/
inductive Effect where
  /-- A call of `Serial.print` on a string literal. -/
  | print (s : String)
  /-- A call of `Serial.print` on an unsigned integer. -/
  | printNum (n : Nat)
  /-- A call of `Serial.print(x, digits)` on a float. -/
  | printFloat (x : ℚ) (digits : Nat)
  /-- A call of `Serial.println` on a string literal. -/
  | println (s : String)
  /-- A call of `Serial.flush()`. -/
  | flush
  /-- A call of `sensor.enableLED(lit)`. -/
  | enableLED (lit : Bool)
  /-- A call of `delay(ms)`. -/
  | delay (ms : Nat)
  deriving DecidableEq

/-- The globals `sampleIntervalMs` and `sensorReady` and the function-static
`lastReadTime`. -/
structure LoopState where
  sampleIntervalMs : Nat
  lastReadTime : Nat
  sensorReady : Bool
  deriving DecidableEq

/-- The state after `setup()`: the initialisers of the three variables. -/
def LoopState.init : LoopState :=
  { sampleIntervalMs := 1000, lastReadTime := 0, sensorReady := false }

/-- What the environment supplies during one call of `loop()`. -/
structure LoopInput where
  /-- The bytes stored by `Serial.readBytesUntil` when `Serial.available() > 0`,
  `none` when nothing is available. -/
  serial : Option (List Char)
  /-- The library function `atof`, as the exact value of the float it returns. -/
  atof : List Char → ℚ
  /-- The value of `millis()` at the interval check. -/
  currentTime : Nat
  /-- Whether `digitalRead(INT_PIN) == LOW`. -/
  intPinLow : Bool
  /-- The `i`-th call of `sensor.readAllChannels(readings)` of a sampling pass:
  the value it returns and the contents of `readings` when it returns. -/
  reads : Nat → Bool × (Nat → Nat)
  /-- Whether the interrupt routine `sensorInterrupt` ran during iteration `i`
  of the sampling loop, before the flag is tested. -/
  isr : Nat → Bool
  /-- The value of `millis()` printed in the reading record. -/
  timestamp : Nat

/-- Two to the power 32, the modulus of `unsigned long` and `uint32_t`. -/
def U32 : Nat := 4294967296

/-- Two to the power 16, the modulus of `uint16_t`. -/
def U16 : Nat := 65536

/-- The trimming loop
`while (len > 0 && (input[len-1] == ' ' || input[len-1] == '\r')) input[--len] = '\0';`. -/
def trimInput (input : List Char) : List Char :=
  (input.reverse.dropWhile (fun c => c == Char.ofNat 32 || c == Char.ofNat 13)).reverse

/-- The C string held in a buffer: the bytes before the first NUL. -/
def cString (buf : List Char) : List Char :=
  buf.takeWhile (fun c => c != Char.ofNat 0)

/-- The chain `if (rate == 0.25f) ... else if (rate == 8.0f) ...`: the new
value of `sampleIntervalMs` when the rate is supported, `none` when
`validRate` stays `false`. -/
def rateInterval (rate : ℚ) : Option Nat :=
  if rate = 1 / 4 then some 4000
  else if rate = 1 / 2 then some 2000
  else if rate = 1 then some 1000
  else if rate = 2 then some 500
  else if rate = 4 then some 250
  else if rate = 8 then some 125
  else none

/-- The command dispatch on the trimmed buffer `input`
(`strcmp`, `strcmp`, `strncmp(input, "RATE:", 5)`, else). -/
def handleCommand (atof : List Char → ℚ) (st : LoopState) (input : List Char) :
    LoopState × List Effect :=
  let str := cString input
  if str = "1".toList then
    (st, [Effect.enableLED true, Effect.println "\x7b\"status\":\"LED ON\"\x7d", Effect.flush])
  else if str = "0".toList then
    (st, [Effect.enableLED false, Effect.println "\x7b\"status\":\"LED OFF\"\x7d", Effect.flush])
  else if str.take 5 = "RATE:".toList then
    let rate := atof (str.drop 5)
    match rateInterval rate with
    | some ms =>
      ({ st with sampleIntervalMs := ms },
       [Effect.print "\x7b\"status\":\"Rate set to ", Effect.printFloat rate 2,
        Effect.println " Hz\"\x7d", Effect.flush])
    | none =>
      (st, [Effect.println "\x7b\"error\":\"Invalid rate. Supported: 0.25, 0.5, 1, 2, 4, 8 Hz\"\x7d",
            Effect.flush])
  else
    (st, [Effect.println "\x7b\"error\":\"Unknown command\"\x7d", Effect.flush])

/-- The block `if (Serial.available() > 0) { ... }`. -/
def commandStep (inp : LoopInput) (st : LoopState) : LoopState × List Effect :=
  match inp.serial with
  | none => (st, [])
  | some bytes => handleCommand inp.atof st (trimInput bytes)

/-- The constant `const int numSamples = 5;`. -/
def numSamples : Nat := 5

/-- Number of entries of `readings` and `accumulated`. -/
def numChannels : Nat := 12

/-- The delay `(sensorReady) ? 20 : max(20UL, sampleIntervalMs / (numSamples + 1))`,
with `n` for `numSamples`. -/
def readDelay (sensorReady : Bool) (sampleIntervalMs n : Nat) : Nat :=
  if sensorReady then 20 else max 20 (sampleIntervalMs / (n + 1))

/-- The locals of the sampling loop, the flag `sensorReady`, and the effects
so far. -/
structure SampleState where
  accumulated : Nat → Nat
  successfulReads : Nat
  sensorReady : Bool
  trace : List Effect

/-- The loop `for (int ch = 0; ch < 12; ch++) accumulated[ch] += readings[ch];` on
`uint32_t` cells. -/
def accumulate (readings accumulated : Nat → Nat) : Nat → Nat :=
  forLoop numChannels
    (fun ch acc => Function.update acc ch ((acc ch + readings ch) % U32))
    accumulated

/-- Body of `for (int i = 0; i < numSamples; i++)` with `n` for `numSamples`. -/
def sampleBody (n sampleIntervalMs : Nat) (reads : Nat → Bool × (Nat → Nat))
    (isr : Nat → Bool) (i : Nat) (s : SampleState) : SampleState :=
  let s1 : SampleState :=
    if (reads i).1 then
      { s with accumulated := accumulate (reads i).2 s.accumulated,
               successfulReads := s.successfulReads + 1 }
    else s
  let ready := s1.sensorReady || isr i
  if i < n - 1 then
    { s1 with sensorReady := ready,
              trace := s1.trace ++ [Effect.delay (readDelay ready sampleIntervalMs n)] }
  else { s1 with sensorReady := ready }

/-- The sampling loop with `n` for `numSamples`, entered after
`sensorReady = false` with `accumulated[12] = {0}` and `successfulReads = 0`. -/
def sampleLoop (n sampleIntervalMs : Nat) (reads : Nat → Bool × (Nat → Nat))
    (isr : Nat → Bool) : SampleState :=
  forLoop n (sampleBody n sampleIntervalMs reads isr)
    { accumulated := fun _ => 0, successfulReads := 0, sensorReady := false, trace := [] }

/-- The loop
`for (int ch = 0; ch < 12; ch++) readings[ch] = accumulated[ch] / successfulReads;`
into the `uint16_t` array `readings` (initial contents `readings`). -/
def average (accumulated : Nat → Nat) (successfulReads : Nat) (readings : Nat → Nat) :
    Nat → Nat :=
  forLoop numChannels
    (fun ch r => Function.update r ch ((accumulated ch / successfulReads) % U16))
    readings

/-- The reading record: the `Serial.print` calls of the success branch. -/
def emitReading (timestamp : Nat) (readings : Nat → Nat) : List Effect :=
  [Effect.print "\x7b\"timestamp\":", Effect.printNum timestamp,
   Effect.print ",\"channels\":\x7b\"410nm\":", Effect.printNum (readings 0),
   Effect.print ",\"440nm\":", Effect.printNum (readings 1),
   Effect.print ",\"470nm\":", Effect.printNum (readings 2),
   Effect.print ",\"510nm\":", Effect.printNum (readings 3),
   Effect.print ",\"550nm\":", Effect.printNum (readings 4),
   Effect.print ",\"580nm\":", Effect.printNum (readings 5),
   Effect.print ",\"610nm\":", Effect.printNum (readings 6),
   Effect.print ",\"680nm\":", Effect.printNum (readings 7),
   Effect.print ",\"730nm\":", Effect.printNum (readings 8),
   Effect.print ",\"810nm\":", Effect.printNum (readings 9),
   Effect.print ",\"860nm\":", Effect.printNum (readings 10),
   Effect.print ",\"clear\":", Effect.printNum (readings 11),
   Effect.println "\x7d\x7d", Effect.flush]

/-- The error record of the `else` branch. -/
def emitError : List Effect :=
  [Effect.println "\x7b\"error\":\"Failed to read sensor\"\x7d", Effect.flush]

/-- The block after the sampling loop: `if (successfulReads > 0) { average and
print } else { error record }`, where `readings0` is `readings` as the last
call of `readAllChannels` left it. Returns the averaged `readings` on success. -/
def report (timestamp : Nat) (readings0 : Nat → Nat) (s : SampleState) :
    Option (Nat → Nat) × List Effect :=
  if s.successfulReads > 0 then
    let readings := average s.accumulated s.successfulReads readings0
    (some readings, emitReading timestamp readings)
  else (none, emitError)

/-- The sampling pass guarded by `if (sensorReady || true)`: clear the flag,
sample, report. -/
def samplingPass (inp : LoopInput) (st : LoopState) : LoopState × List Effect :=
  let s := sampleLoop numSamples st.sampleIntervalMs inp.reads inp.isr
  let r := report inp.timestamp (inp.reads (numSamples - 1)).2 s
  ({ st with sensorReady := s.sensorReady }, s.trace ++ r.2)

/-- The interval check: the overflow reset of `lastReadTime`, the test
`currentTime - lastReadTime >= sampleIntervalMs` in `unsigned long`
arithmetic, the interrupt-pin poll and the always-true gate. -/
def intervalStep (inp : LoopInput) (st : LoopState) : LoopState × List Effect :=
  let st1 : LoopState :=
    if inp.currentTime < st.lastReadTime then { st with lastReadTime := inp.currentTime }
    else st
  if (inp.currentTime + U32 - st1.lastReadTime) % U32 ≥ st1.sampleIntervalMs then
    let st2 : LoopState := { st1 with lastReadTime := inp.currentTime }
    let st3 : LoopState := if inp.intPinLow then { st2 with sensorReady := true } else st2
    if st3.sensorReady || true then samplingPass inp st3 else (st3, [])
  else (st1, [])

/-- One call of `void loop()`. -/
def loop (inp : LoopInput) (st : LoopState) : LoopState × List Effect :=
  let c := commandStep inp st
  let r := intervalStep inp c.1
  (r.1, c.2 ++ r.2)

/-- A concrete `atof` for plain decimal text `digits[.digits]`: the value of
the longest such text at the start of the string, `0` when there is none. -/
def atofDecimal (s : List Char) : ℚ :=
  let intDigits := s.takeWhile Char.isDigit
  let rest := s.dropWhile Char.isDigit
  let fracDigits :=
    match rest with
    | c :: t => if c = Char.ofNat 46 then t.takeWhile Char.isDigit else []
    | [] => []
  let value (ds : List Char) : Nat := ds.foldl (fun n d => 10 * n + (d.toNat - 48)) 0
  (value intDigits : ℚ) + (value fracDigits : ℚ) / (10 : ℚ) ^ fracDigits.length

/-! ## Reference definitions, following the specification's words -/

section Reference

variable {α : Type} [LinearOrderedField α]

/-- Specification, hidden layer: `z_h = bias_h + Σ_i input_i * W1[i,h]` with
`W1[i,h]` at flat offset `i * hidden_size + h`, then `a_h = max(z_h, 0)`. -/
def specHidden (nn : NeuralNetwork α) (input : Nat → α) (h : Nat) : α :=
  max (nn.biases_hidden h +
    ∑ i in Finset.range nn.input_size, input i * nn.weights_hidden (i * nn.hidden_size + h)) 0

/-- Specification, output layer: `logit_o = bias_o + Σ_h a_h * W2[h,o]` with
`W2[h,o]` at flat offset `h * output_size + o`. -/
def specLogit (nn : NeuralNetwork α) (input : Nat → α) (o : Nat) : α :=
  nn.biases_output o +
    ∑ h in Finset.range nn.hidden_size, specHidden nn input h * nn.weights_output (h * nn.output_size + o)

/-- Specification, `m = max(logit)` over the `n` entries of a non-empty vector. -/
def specMax (logit : Nat → α) (n : Nat) : α :=
  ((List.range n).map logit).foldl max (logit 0)

/-- Specification, softmax: `e_o = exp(logit_o - m)`, `p_o = e_o / Σ e`. -/
def specSoftmax (exp : α → α) (logit : Nat → α) (n : Nat) (o : Nat) : α :=
  exp (logit o - specMax logit n) / ∑ j in Finset.range n, exp (logit j - specMax logit n)

end Reference

/-- Specification, `successCount`: the number of the first `n` calls of
`readAllChannels` that returned `true`. -/
def successCount (n : Nat) (reads : Nat → Bool × (Nat → Nat)) : Nat :=
  ((Finset.range n).filter (fun i => (reads i).1 = true)).card

/-- Specification, `S_ch`: the exact sum of channel `ch` over the successful
reads among the first `n`. -/
def successSum (n : Nat) (reads : Nat → Bool × (Nat → Nat)) (ch : Nat) : Nat :=
  ∑ i in (Finset.range n).filter (fun i => (reads i).1 = true), (reads i).2 ch

/-- The six supported `RATE:` arguments as written in the source comment, each
with its rate in Hz and its period in milliseconds. -/
def rateTable : List (String × ℚ × Nat) :=
  [("0.25", 1 / 4, 4000), ("0.5", 1 / 2, 2000), ("1", 1, 1000),
   ("2", 2, 500), ("4", 4, 250), ("8", 8, 125)]

/-- A sample environment: no command pending, the interval elapsed, reads 0, 2
and 4 succeed with every channel at 10, 30 and 50, reads 1 and 3 fail leaving
20 and 40 in the buffer. -/
def sampleInput : LoopInput :=
  { serial := none, atof := atofDecimal, currentTime := 1000, intPinLow := false,
    reads := fun i => (i % 2 == 0, fun _ => 10 * (i + 1)),
    isr := fun _ => false, timestamp := 1234 }

/-- The value of `sensorReady` after `m` iterations of the sampling loop: the
flag is cleared before the loop and afterwards only set, by the interrupt
routine. -/
def readyAfter (isr : Nat → Bool) (m : Nat) : Bool :=
  forLoop m (fun i ready => ready || isr i) false

/-- The arguments of the `delay` calls of a trace, in program order. -/
def delaysOf : List Effect → List Nat
  | [] => []
  | Effect.delay ms :: es => ms :: delaysOf es
  | Effect.print _ :: es => delaysOf es
  | Effect.printNum _ :: es => delaysOf es
  | Effect.printFloat _ _ :: es => delaysOf es
  | Effect.println _ :: es => delaysOf es
  | Effect.flush :: es => delaysOf es
  | Effect.enableLED _ :: es => delaysOf es

/-- The total time slept in a trace, in milliseconds. -/
def totalDelay (es : List Effect) : Nat := (delaysOf es).sum

/-- The six supported sampling periods in milliseconds. -/
def supportedIntervals : List Nat := [4000, 2000, 1000, 500, 250, 125]

/-- The names written between double quotes in a text, in order; `inside`
tells whether an opening quote has been read and `acc` holds the characters of
the current name, last first. -/
def quotedNames : List Char → Bool → List Char → List (List Char)
  | [], _, _ => []
  | c :: cs, false, _ =>
    if c = Char.ofNat 34 then quotedNames cs true [] else quotedNames cs false []
  | c :: cs, true, acc =>
    if c = Char.ofNat 34 then acc.reverse :: quotedNames cs false []
    else quotedNames cs true (c :: acc)

/-- The key a printed text ends with: its last quoted name. -/
def lastKey (s : String) : List Char :=
  ((quotedNames s.toList false []).getLast?).getD []

/-- The key/value pairs of a record: every `Serial.print` of a text directly
followed by the `Serial.print` of a number gives the pair of the text's last
quoted name and that number. -/
def recordFields : List Effect → List (List Char × Nat)
  | [] => []
  | Effect.print s :: Effect.printNum v :: es => (lastKey s, v) :: recordFields es
  | _ :: es => recordFields es

/-- Whether a key is named by wavelength, that is, ends in `nm`. -/
def isWavelengthKey (k : List Char) : Bool :=
  k.reverse.take 2 == "mn".toList

/-- An environment in which the interrupt routine runs during the first read
of the pass and `sensorReady` is therefore set at every delay. -/
def interruptedInput : LoopInput :=
  { sampleInput with isr := fun _ => true }

/-- An environment that delivers the command `RATE:3`. -/
def rate3Input : LoopInput :=
  { sampleInput with serial := some "RATE:3".toList }

/-! ## The C library in binary32 arithmetic

The theorems over the reals read `exp` and `atof` as exact. The definitions
below model what these library functions leave in a `float`, to exhibit where
rounding changes what the code does. -/

/-- Conversion of a rational to the nearest binary32 number (24 significant
bits, halves rounded up), for values in the normal range; overflow and
subnormal numbers are not modelled. -/
def roundBinary32 (q : ℚ) : ℚ :=
  if q = 0 then 0
  else ((⌊q * 2 ^ (23 - Int.log 2 |q|) + 1 / 2⌋ : ℤ) : ℚ) / 2 ^ (23 - Int.log 2 |q|)

/-- The statement `float rate = atof(input + 5);` on plain decimal text: the
decimal value converted to binary32. -/
def atofBinary32 (s : List Char) : ℚ := roundBinary32 (atofDecimal s)

/-- A rational approximation of `e^x`: the Taylor polynomial of degree 12 at
`x / 256`, raised to the power 256. -/
def expApprox (x : ℚ) : ℚ :=
  (∑ k in Finset.range 13, (x / 256) ^ k / (k.factorial : ℚ)) ^ 256

/-- A model of the C library function `exp` with its result stored in a
`float`, for the arguments `x <= 0` that occur in `softmax`. For `x <= -104`
the value `e^x` is below `2^-150`, half the smallest positive binary32 number,
and the stored result is 0. For `|x| <= 2^-26` the value `e^x` differs from 1
by less than `2^-25`, half the spacing of the binary32 numbers next to 1, and
the stored result is 1. In between the result is the binary32 number nearest
to an approximation of `e^x`. -/
def expBinary32 (x : ℚ) : ℚ :=
  if x ≤ -104 then 0
  else if -(1 / 2 ^ 26) ≤ x ∧ x ≤ 1 / 2 ^ 26 then 1
  else roundBinary32 (expApprox x)

/-- The logits `[0, 2^-100]`. -/
def closeLogits : Nat → ℚ := fun i => if i = 1 then 1 / 2 ^ 100 else 0

/-- The logits `[0, 200]`. -/
def farLogits : Nat → ℚ := fun i => if i = 1 then 200 else 0

/-- The logits `[-2^-100, 0, 0]`. -/
def tieLogits : Nat → ℚ := fun o => if o = 0 then -(1 / 2 ^ 100) else 0

section BiasModel

variable {α : Type} [LinearOrderedField α]

/-- A model with 1 input, 1 hidden unit and 3 outputs whose weights and hidden
bias are all 0, so that its logits are its output biases `b`. -/
def biasModel (b : Nat → α) : NeuralNetwork α :=
  NeuralNetwork.new 1 1 3 (fun _ => 0) (fun _ => 0) (fun _ => 0) b

end BiasModel

/-- An environment that delivers the command `RATE:0.2500000001`, with `atof`
and the conversion to `float` as in binary32 arithmetic. -/
def roundedRateInput : LoopInput :=
  { sampleInput with serial := some "RATE:0.2500000001".toList, atof := atofBinary32 }

/-! ## Properties -/

section LoopLemmas

theorem forLoop_succ {σ : Type u} (n : Nat) (body : Nat → σ → σ) (s : σ) :
    forLoop (n + 1) body s = body n (forLoop n body s) := rfl

/-- A loop that rewrites cell `i` in iteration `i` acts pointwise on the first
`n` cells and leaves the others alone. -/
theorem forLoop_update_apply {β : Type u} (f : Nat → β → β) (buf : Nat → β) (n j : Nat) :
    forLoop n (fun i b => Function.update b i (f i (b i))) buf j
      = if j < n then f j (buf j) else buf j := by
  induction n generalizing j with
  | zero => simp [forLoop]
  | succ n ih =>
    rw [forLoop_succ]
    by_cases hj : j = n
    · subst hj
      simp [ih]
    · rw [Function.update_noteq hj, ih]
      have h1 : j < n + 1 ↔ j < n := by omega
      simp only [h1]

/-- A loop that adds `g i` to an accumulator in iteration `i` computes the
finite sum. -/
theorem forLoop_add_eq_sum {β : Type} [AddCommMonoid β] (g : Nat → β) (a : β) (n : Nat) :
    forLoop n (fun i acc => acc + g i) a = a + ∑ i in Finset.range n, g i := by
  induction n with
  | zero => simp [forLoop]
  | succ n ih => rw [forLoop_succ, ih, Finset.sum_range_succ, add_assoc]

/-- A loop that writes `g h` to cell `h` and logs the index `h`. -/
theorem forLoop_write_log {β : Type} (g : Nat → β) (stack : Nat → β) (m : Nat) :
    forLoop m (fun h (st : (Nat → β) × List Nat) => (Function.update st.1 h (g h), st.2 ++ [h]))
        (stack, [])
      = (fun j => if j < m then g j else stack j, List.range m) := by
  induction m with
  | zero => simp [forLoop]
  | succ m ih =>
    rw [forLoop_succ, ih]
    refine Prod.ext ?_ ?_
    · funext j
      by_cases hj : j = m
      · subst hj
        simp
      · have h1 : j < m + 1 ↔ j < m := by omega
        simp [Function.update_noteq hj, h1]
    · simp [List.range_succ]

end LoopLemmas

section SoftmaxLemmas

variable {α : Type} [LinearOrderedField α]

theorem softmaxExp_eq (exp : α → α) (m : α) (n : Nat) (input : Nat → α) :
    softmaxExp exp m n input =
      (fun j => if j < n then exp (input j - m) else input j,
        ∑ i in Finset.range n, exp (input i - m)) := by
  induction n with
  | zero => simp [softmaxExp, forLoop]
  | succ n ih =>
    unfold softmaxExp at ih ⊢
    rw [forLoop_succ, ih]
    refine Prod.ext ?_ ?_
    · funext j
      by_cases hj : j = n
      · subst hj
        simp
      · have h1 : j < n + 1 ↔ j < n := by omega
        simp [Function.update_noteq hj, h1]
    · simp [Finset.sum_range_succ]

theorem softmaxSum_eq (exp : α → α) (input : Nat → α) (n : Nat) :
    softmaxSum exp input n
      = ∑ i in Finset.range n, exp (input i - softmaxMax input n) := by
  simp [softmaxSum, softmaxExp_eq]

/-- Closed form of the array left by `softmax`. -/
theorem softmax_apply (exp : α → α) (input : Nat → α) (n j : Nat) :
    softmax exp input n j
      = if j < n then exp (input j - softmaxMax input n) / softmaxSum exp input n
        else input j := by
  unfold softmax softmaxNormalize
  rw [forLoop_update_apply (fun _ x => x / (softmaxExp exp (softmaxMax input n) n input).2)]
  by_cases hj : j < n
  · simp [hj, softmaxSum, softmaxExp_eq]
  · simp [hj, softmaxExp_eq]

theorem softmaxMax_succ_succ (input : Nat → α) (n : Nat) :
    softmaxMax input (n + 2) = max (softmaxMax input (n + 1)) (input (n + 1)) := by
  have h : softmaxMax input (n + 2)
      = if input (n + 1) > softmaxMax input (n + 1) then input (n + 1)
        else softmaxMax input (n + 1) := rfl
  rw [h]
  split
  · next h => exact (max_eq_right (le_of_lt h)).symm
  · next h => exact (max_eq_left (not_lt.mp h)).symm

theorem specMax_succ (logit : Nat → α) (n : Nat) :
    specMax logit (n + 1) = max (specMax logit n) (logit n) := by
  simp [specMax, List.range_succ, List.foldl_append]

/-- The maximum found by the first loop of `softmax` is the specification's
`max(logit)`. -/
theorem softmaxMax_eq_specMax (input : Nat → α) (n : Nat) :
    softmaxMax input n = specMax input n := by
  rcases n with _ | n
  · simp [softmaxMax, specMax, forLoop]
  · induction n with
    | zero => simp [softmaxMax, specMax, forLoop, List.range_succ]
    | succ n ih => rw [softmaxMax_succ_succ, ih, specMax_succ input (n + 1)]

theorem le_specMax (logit : Nat → α) (n j : Nat) (hj : j < n) : logit j ≤ specMax logit n := by
  induction n with
  | zero => omega
  | succ n ih =>
    rw [specMax_succ]
    by_cases h : j = n
    · subst h
      exact le_max_right _ _
    · exact le_trans (ih (by omega)) (le_max_left _ _)

theorem specMax_attained (logit : Nat → α) (n : Nat) (hn : 0 < n) :
    ∃ j, j < n ∧ specMax logit n = logit j := by
  induction n with
  | zero => omega
  | succ n ih =>
    rw [specMax_succ]
    rcases Nat.eq_zero_or_pos n with h0 | hpos
    · subst h0
      exact ⟨0, by omega, by simp [specMax]⟩
    · obtain ⟨j, hj, hm⟩ := ih hpos
      rcases le_total (specMax logit n) (logit n) with h | h
      · exact ⟨n, by omega, max_eq_right h⟩
      · exact ⟨j, by omega, by rw [max_eq_left h, hm]⟩

/-- The denominator of `softmax` is positive for a non-empty vector, whatever
positive function stands for `exp`. -/
theorem softmaxSum_pos (exp : α → α) (hexp : ∀ x, 0 < exp x) (input : Nat → α) (n : Nat)
    (hn : 0 < n) : 0 < softmaxSum exp input n := by
  rw [softmaxSum_eq]
  apply Finset.sum_pos
  · intro i _
    exact hexp _
  · exact ⟨0, Finset.mem_range.mpr hn⟩

end SoftmaxLemmas

section ArgmaxLemmas

variable {α : Type} [LinearOrderedField α]

theorem argmaxScan_succ_succ (f : Nat → α) (k : Nat) :
    argmaxScan f (k + 2)
      = if f (k + 1) > (argmaxScan f (k + 1)).2 then (k + 1, f (k + 1))
        else argmaxScan f (k + 1) := by
  rfl

/-- Invariant of the scan after cells `0 .. k` have been inspected:
`highest_prob` is the cell at `best_class`, which is the first maximum. -/
theorem argmaxScan_inv (f : Nat → α) (k : Nat) :
    (argmaxScan f (k + 1)).2 = f (argmaxScan f (k + 1)).1 ∧
    (argmaxScan f (k + 1)).1 ≤ k ∧
    (∀ j, j ≤ k → f j ≤ f (argmaxScan f (k + 1)).1) ∧
    (∀ j, j < (argmaxScan f (k + 1)).1 → f j < f (argmaxScan f (k + 1)).1) := by
  induction k with
  | zero =>
    refine ⟨rfl, le_refl _, ?_, ?_⟩
    · intro j hj
      have : j = 0 := by omega
      subst this
      exact le_refl _
    · intro j hj
      have h0 : (argmaxScan f (0 + 1)).1 = 0 := rfl
      omega
  | succ k ih =>
    obtain ⟨h1, h2, h3, h4⟩ := ih
    rw [argmaxScan_succ_succ]
    split
    · next hgt =>
      refine ⟨rfl, le_refl _, ?_, ?_⟩
      · intro j hj
        by_cases hjk : j = k + 1
        · subst hjk
          exact le_refl _
        · exact le_of_lt (lt_of_le_of_lt (h3 j (by omega)) (h1 ▸ hgt))
      · intro j hj
        exact lt_of_le_of_lt (h3 j (by simpa using Nat.lt_succ_iff.mp hj)) (h1 ▸ hgt)
    · next hle =>
      refine ⟨h1, by omega, ?_, h4⟩
      intro j hj
      by_cases hjk : j = k + 1
      · subst hjk
        exact h1 ▸ not_lt.mp hle
      · exact h3 j (by omega)

theorem argmax_lt (f : Nat → α) (n : Nat) (hn : 0 < n) : argmax f n < n := by
  obtain ⟨k, rfl⟩ : ∃ k, n = k + 1 := ⟨n - 1, by omega⟩
  have := (argmaxScan_inv f k).2.1
  unfold argmax
  omega

/-- The value of `best_class` after the scan is the first maximum of the
first `n` cells. -/
theorem argmax_first_max (f : Nat → α) (n : Nat) (hn : 0 < n) :
    (∀ j, j < n → f j ≤ f (argmax f n)) ∧ (∀ j, j < argmax f n → f j < f (argmax f n)) := by
  obtain ⟨k, rfl⟩ : ∃ k, n = k + 1 := ⟨n - 1, by omega⟩
  obtain ⟨_, _, h3, h4⟩ := argmaxScan_inv f k
  exact ⟨fun j hj => h3 j (by omega), h4⟩

/-- A first maximum is unique. -/
theorem first_max_unique (f : Nat → α) (n a b : Nat) (ha : a < n) (hb : b < n)
    (ha1 : ∀ j, j < n → f j ≤ f a) (ha2 : ∀ j, j < a → f j < f a)
    (hb1 : ∀ j, j < n → f j ≤ f b) (hb2 : ∀ j, j < b → f j < f b) : a = b := by
  rcases Nat.lt_trichotomy a b with h | h | h
  · exact absurd (hb2 a h) (not_lt.mpr (ha1 b hb))
  · exact h
  · exact absurd (ha2 b h) (not_lt.mpr (hb1 a ha))

/-- The scan only looks at the order of the cells: two arrays ordered alike
on the first `n` cells have the same first maximum. -/
theorem argmax_congr (f g : Nat → α) (n : Nat) (hn : 0 < n)
    (h : ∀ i j, i < n → j < n → (g i < g j ↔ f i < f j)) : argmax g n = argmax f n := by
  have hf := argmax_first_max f n hn
  have hg := argmax_first_max g n hn
  have hgl := argmax_lt g n hn
  have hfl := argmax_lt f n hn
  refine first_max_unique f n _ _ hgl hfl ?_ ?_ hf.1 hf.2
  · intro j hj
    have := hg.1 j hj
    exact not_lt.mp (fun hlt => absurd ((h _ _ hgl hj).mpr hlt) (not_lt.mpr this))
  · intro j hj
    exact (h _ _ (lt_trans hj hgl) hgl).mp (hg.2 j hj)

end ArgmaxLemmas

section PredictLemmas

variable {α : Type} [LinearOrderedField α]

theorem relu_eq_max (x : α) : relu x = max x 0 := by
  unfold relu
  split
  · next h => exact (max_eq_left (le_of_lt h)).symm
  · next h => exact (max_eq_right (not_lt.mp h)).symm

theorem hiddenSum_eq (nn : NeuralNetwork α) (input_data : Nat → α) (h : Nat) :
    hiddenSum nn input_data h
      = nn.biases_hidden h + ∑ i in Finset.range nn.input_size,
          input_data i * nn.weights_hidden (i * nn.hidden_size + h) := by
  unfold hiddenSum
  exact forLoop_add_eq_sum
    (fun i => input_data i * nn.weights_hidden (i * nn.hidden_size + h)) _ _

theorem hiddenPass_eq (nn : NeuralNetwork α) (input_data stack : Nat → α) :
    hiddenPass nn input_data stack
      = (fun j => if j < nn.hidden_size then specHidden nn input_data j else stack j,
         List.range nn.hidden_size) := by
  unfold hiddenPass
  rw [forLoop_write_log (fun h => relu (hiddenSum nn input_data h))]
  refine Prod.ext ?_ rfl
  funext j
  simp only [relu_eq_max, hiddenSum_eq, specHidden]

/-- Every index at which `predict` writes `hidden_layer` is below `hidden_size`,
and every such index is written. -/
theorem predict_hidden_writes (exp : α → α) (nn : NeuralNetwork α)
    (input_data output_data stack : Nat → α) :
    (predict exp nn input_data output_data stack).hidden_writes = List.range nn.hidden_size := by
  simp [predict, hiddenPass_eq]

theorem outputSum_eq (nn : NeuralNetwork α) (input_data stack : Nat → α) (o : Nat) :
    outputSum nn (hiddenPass nn input_data stack).1 o = specLogit nn input_data o := by
  unfold outputSum specLogit
  rw [forLoop_add_eq_sum
    (fun h => (hiddenPass nn input_data stack).1 h * nn.weights_output (h * nn.output_size + o))]
  congr 1
  apply Finset.sum_congr rfl
  intro h hh
  have hlt : h < nn.hidden_size := Finset.mem_range.mp hh
  simp [hiddenPass_eq, hlt]

/-- The raw logits stored by step 2 of `predict`. -/
theorem outputPass_apply (nn : NeuralNetwork α) (input_data output_data stack : Nat → α)
    (o : Nat) :
    outputPass nn (hiddenPass nn input_data stack).1 output_data o
      = if o < nn.output_size then specLogit nn input_data o else output_data o := by
  unfold outputPass
  rw [forLoop_update_apply (fun o _ => outputSum nn (hiddenPass nn input_data stack).1 o)]
  simp only [outputSum_eq]

theorem specMax_congr (f g : Nat → α) (n : Nat) (h : ∀ j, j < n + 1 → f j = g j) :
    specMax f (n + 1) = specMax g (n + 1) := by
  induction n with
  | zero => simp [specMax, List.range_succ, h 0 (by omega)]
  | succ n ih =>
    rw [specMax_succ f (n + 1), specMax_succ g (n + 1), ih (fun j hj => h j (by omega)),
      h (n + 1) (by omega)]

/-- On a non-empty vector `softmax` only depends on the first `n` cells. -/
theorem softmax_congr (exp : α → α) (f g : Nat → α) (n : Nat) (hn : 0 < n)
    (h : ∀ j, j < n → f j = g j) (o : Nat) (ho : o < n) :
    softmax exp f n o = softmax exp g n o := by
  obtain ⟨k, rfl⟩ : ∃ k, n = k + 1 := ⟨n - 1, by omega⟩
  have hm : softmaxMax f (k + 1) = softmaxMax g (k + 1) := by
    rw [softmaxMax_eq_specMax, softmaxMax_eq_specMax, specMax_congr f g k h]
  rw [softmax_apply, softmax_apply, softmaxSum_eq, softmaxSum_eq, hm, h o ho]
  simp only [ho, if_true]
  congr 1
  apply Finset.sum_congr rfl
  intro i hi
  rw [h i (Finset.mem_range.mp hi)]

/-- The array left by `softmax` agrees with the specification's softmax. -/
theorem softmax_eq_specSoftmax (exp : α → α) (f : Nat → α) (n o : Nat) (ho : o < n) :
    softmax exp f n o = specSoftmax exp f n o := by
  rw [softmax_apply, softmaxSum_eq, softmaxMax_eq_specMax]
  simp [ho, specSoftmax]

/-- On the first `n` cells `softmax` preserves the strict order of the cells,
for every positive strictly increasing function standing for `exp`. -/
theorem softmax_lt_iff (exp : α → α) (hpos : ∀ x, 0 < exp x) (hmono : StrictMono exp)
    (f : Nat → α) (n i j : Nat) (hi : i < n) (hj : j < n) :
    softmax exp f n i < softmax exp f n j ↔ f i < f j := by
  have hS : 0 < softmaxSum exp f n := softmaxSum_pos exp hpos f n (by omega)
  rw [softmax_apply, softmax_apply]
  simp only [hi, hj, if_true]
  rw [div_lt_div_iff_of_pos_right hS, hmono.lt_iff_lt]
  exact sub_lt_sub_iff_right _

end PredictLemmas

/-! ### Inference engine -/

/-- C1. For every model with `hidden_size <= 16` and `output_size >= 1` and
every input, `predict` leaves in `output_data[0 .. output_size)` the reference
dense-ReLU-dense-softmax forward pass over the reals, with hidden weight
`(i, h)` read at offset `i * hidden_size + h` and output weight `(h, o)` at
offset `h * output_size + o`; the cells beyond `output_size` are untouched and
every write to `hidden_layer` stays inside its 16 cells. -/
theorem predict_eq_reference (nn : NeuralNetwork ℝ) (input_data output_data stack : Nat → ℝ)
    (hh : nn.hidden_size ≤ 16) (ho : 1 ≤ nn.output_size) :
    (∀ o, o < nn.output_size →
      (predict Real.exp nn input_data output_data stack).output_data o
        = specSoftmax Real.exp (specLogit nn input_data) nn.output_size o) ∧
    (∀ o, nn.output_size ≤ o →
      (predict Real.exp nn input_data output_data stack).output_data o = output_data o) ∧
    (∀ h, h ∈ (predict Real.exp nn input_data output_data stack).hidden_writes →
      h < HIDDEN_CAPACITY) := by
  refine ⟨?_, ?_, ?_⟩
  · intro o hlt
    show softmax Real.exp (outputPass nn (hiddenPass nn input_data stack).1 output_data)
      nn.output_size o = _
    rw [softmax_congr Real.exp _ (specLogit nn input_data) nn.output_size (by omega) _ o hlt]
    · exact softmax_eq_specSoftmax Real.exp _ _ _ hlt
    · intro j hj
      rw [outputPass_apply]
      simp [hj]
  · intro o hge
    show softmax Real.exp (outputPass nn (hiddenPass nn input_data stack).1 output_data)
      nn.output_size o = _
    have h1 : ¬ o < nn.output_size := by omega
    rw [softmax_apply, outputPass_apply]
    simp [h1]
  · intro h hmem
    rw [predict_hidden_writes, List.mem_range] at hmem
    unfold HIDDEN_CAPACITY
    omega

/-- C1, at a concrete 2-3-2 model with input `[1, 0]`. -/
theorem predict_eq_reference_witness :
    (NeuralNetwork.new 2 3 2 (fun i => (i : ℝ)) (fun _ => 1) (fun i => (i : ℝ)) (fun _ => 0)).hidden_size ≤ 16 ∧
    1 ≤ (NeuralNetwork.new 2 3 2 (fun i => (i : ℝ)) (fun _ => 1) (fun i => (i : ℝ)) (fun _ => 0)).output_size ∧
    (predict Real.exp
        (NeuralNetwork.new 2 3 2 (fun i => (i : ℝ)) (fun _ => 1) (fun i => (i : ℝ)) (fun _ => 0))
        (fun i => if i = 0 then 1 else 0) (fun _ => 0) (fun _ => 0)).output_data 0
      = specSoftmax Real.exp
          (specLogit
            (NeuralNetwork.new 2 3 2 (fun i => (i : ℝ)) (fun _ => 1) (fun i => (i : ℝ)) (fun _ => 0))
            (fun i => if i = 0 then 1 else 0)) 2 0 :=
  ⟨by decide, by decide,
    (predict_eq_reference
      (NeuralNetwork.new 2 3 2 (fun i => (i : ℝ)) (fun _ => 1) (fun i => (i : ℝ)) (fun _ => 0))
      (fun i => if i = 0 then 1 else 0) (fun _ => 0) (fun _ => 0)
      (by decide) (by decide)).1 0 (by decide)⟩

/-- C3, amended. For every non-empty logit vector, with the arithmetic and
`exp` read over the reals, the first-maximum scan of `predict` returns on the
vector left by `softmax` the index it returns on the logits. -/
theorem argmax_softmax (input : Nat → ℝ) (length : Nat) (hn : 0 < length) :
    argmax (softmax Real.exp input length) length = argmax input length :=
  argmax_congr input (softmax Real.exp input length) length hn
    (fun i j hi hj =>
      softmax_lt_iff Real.exp Real.exp_pos Real.exp_strictMono input length i j hi hj)

/-- C3, amended, at the logits `[0, 1, 2]`. -/
theorem argmax_softmax_witness :
    0 < 3 ∧ argmax (softmax Real.exp (fun i => (i : ℝ)) 3) 3 = argmax (fun i => (i : ℝ)) 3 :=
  ⟨by decide, argmax_softmax (fun i => (i : ℝ)) 3 (by decide)⟩

/-- C4. For every non-empty vector of logits, the values `softmax` leaves in
the array sum to exactly 1 over the reals, hence to within `1e-4` of 1. -/
theorem softmax_sum_eq_one (input : Nat → ℝ) (length : Nat) (hn : 0 < length) :
    ∑ i in Finset.range length, softmax Real.exp input length i = 1 ∧
    |∑ i in Finset.range length, softmax Real.exp input length i - 1| ≤ 1 / 10000 := by
  have hS : 0 < softmaxSum Real.exp input length :=
    softmaxSum_pos Real.exp Real.exp_pos input length hn
  have h1 : ∑ i in Finset.range length, softmax Real.exp input length i = 1 := by
    have hcongr : ∀ i ∈ Finset.range length, softmax Real.exp input length i
        = Real.exp (input i - softmaxMax input length) / softmaxSum Real.exp input length := by
      intro i hi
      rw [softmax_apply]
      simp [Finset.mem_range.mp hi]
    rw [Finset.sum_congr rfl hcongr, ← Finset.sum_div, ← softmaxSum_eq]
    exact div_self (ne_of_gt hS)
  refine ⟨h1, ?_⟩
  rw [h1]
  norm_num

/-- C4, at the logits `[0, 1, 2]`. -/
theorem softmax_sum_eq_one_witness :
    0 < 3 ∧ ∑ i in Finset.range 3, softmax Real.exp (fun i => (i : ℝ)) 3 i = 1 :=
  ⟨by decide, (softmax_sum_eq_one (fun i => (i : ℝ)) 3 (by decide)).1⟩

/-- C5, refuted as stated: the constructor accepts a hidden size of 17, and
`predict` on the resulting model writes `hidden_layer[16]`, one cell past the
buffer. -/
theorem constructor_accepts_oversized_hidden :
    (NeuralNetwork.new 12 17 3 (fun _ => (0 : ℝ)) (fun _ => 0) (fun _ => 0)
        (fun _ => 0)).hidden_size = 17 ∧
    16 ∈ (predict Real.exp
        (NeuralNetwork.new 12 17 3 (fun _ => (0 : ℝ)) (fun _ => 0) (fun _ => 0) (fun _ => 0))
        (fun _ => 0) (fun _ => 0) (fun _ => 0)).hidden_writes ∧
    ¬ 16 < HIDDEN_CAPACITY := by
  refine ⟨rfl, ?_, by decide⟩
  rw [predict_hidden_writes]
  simp [NeuralNetwork.new]

/-- C5, amended. The constructor performs no validation: the model it returns
has the hidden size it was given, whatever that is. For every model with
`hidden_size <= 16`, `predict` never writes `hidden_layer[h]` with `h >= 16`. -/
theorem constructor_unchecked_writes_in_bounds (inputs hidden outputs : Nat)
    (w_h b_h w_o b_o input_data output_data stack : Nat → ℝ) :
    (NeuralNetwork.new inputs hidden outputs w_h b_h w_o b_o).hidden_size = hidden ∧
    (hidden ≤ 16 →
      ∀ h, h ∈ (predict Real.exp (NeuralNetwork.new inputs hidden outputs w_h b_h w_o b_o)
          input_data output_data stack).hidden_writes → h < 16) := by
  refine ⟨rfl, ?_⟩
  intro hle h hmem
  rw [predict_hidden_writes, List.mem_range] at hmem
  have : (NeuralNetwork.new inputs hidden outputs w_h b_h w_o b_o).hidden_size = hidden := rfl
  omega

/-- C5, amended, at the architecture named in the header: 12 inputs, 16 hidden
units. -/
theorem constructor_unchecked_writes_in_bounds_witness :
    16 ≤ 16 ∧
    ∀ h, h ∈ (predict Real.exp
        (NeuralNetwork.new 12 16 3 (fun _ => (0 : ℝ)) (fun _ => 0) (fun _ => 0) (fun _ => 0))
        (fun _ => 0) (fun _ => 0) (fun _ => 0)).hidden_writes → h < 16 :=
  ⟨by decide,
    (constructor_unchecked_writes_in_bounds 12 16 3 (fun _ => 0) (fun _ => 0) (fun _ => 0)
      (fun _ => 0) (fun _ => 0) (fun _ => 0) (fun _ => 0)).2 (by decide)⟩

/-! ### Normalizer -/

section NormalizeLemmas

variable {α : Type} [LinearOrderedField α]

theorem sumSquares_eq (vector : Nat → α) (length : Nat) :
    sumSquares vector length = ∑ i in Finset.range length, vector i ^ 2 := by
  unfold sumSquares
  rw [forLoop_add_eq_sum (fun i => vector i * vector i), zero_add]
  exact Finset.sum_congr rfl (fun i _ => (sq (vector i)).symm)

/-- Closed form of the array left by `l2_normalize`. -/
theorem l2_normalize_apply (sqrt : α → α) (vector : Nat → α) (length j : Nat) :
    l2_normalize sqrt vector length j
      = if 0 < sqrt (∑ i in Finset.range length, vector i ^ 2) ∧ j < length
        then vector j / sqrt (∑ i in Finset.range length, vector i ^ 2)
        else vector j := by
  unfold l2_normalize
  simp only [sumSquares_eq, gt_iff_lt]
  by_cases hm : 0 < sqrt (∑ i in Finset.range length, vector i ^ 2)
  · rw [if_pos hm,
      forLoop_update_apply (fun _ x => x / sqrt (∑ i in Finset.range length, vector i ^ 2))]
    simp [hm]
  · simp [hm]

end NormalizeLemmas

/-- C8. For every vector whose magnitude `sqrt(Σ v_i^2)` is positive,
`l2_normalize` replaces each component `v_i` by `v_i / sqrt(Σ v_j^2)`, and the
resulting vector has L2 norm exactly 1 over the reals. -/
theorem l2_normalize_unit_norm (vector : Nat → ℝ) (length : Nat)
    (hmag : 0 < Real.sqrt (∑ i in Finset.range length, vector i ^ 2)) :
    (∀ i, i < length →
      l2_normalize Real.sqrt vector length i
        = vector i / Real.sqrt (∑ j in Finset.range length, vector j ^ 2)) ∧
    Real.sqrt (∑ i in Finset.range length, l2_normalize Real.sqrt vector length i ^ 2) = 1 := by
  have hval : ∀ i, i < length →
      l2_normalize Real.sqrt vector length i
        = vector i / Real.sqrt (∑ j in Finset.range length, vector j ^ 2) := by
    intro i hi
    rw [l2_normalize_apply]
    simp [hmag, hi]
  refine ⟨hval, ?_⟩
  have hS : 0 < ∑ i in Finset.range length, vector i ^ 2 := Real.sqrt_pos.mp hmag
  have hsum : ∑ i in Finset.range length, l2_normalize Real.sqrt vector length i ^ 2 = 1 := by
    rw [Finset.sum_congr rfl (fun i hi => by rw [hval i (Finset.mem_range.mp hi), div_pow]),
      ← Finset.sum_div, Real.sq_sqrt (le_of_lt hS)]
    exact div_self (ne_of_gt hS)
  rw [hsum, Real.sqrt_one]

/-- C8, at `[3, 4, 0, ..., 0]` of length 12: the magnitude is 5 and the vector
becomes `[0.6, 0.8, 0, ..., 0]`. -/
theorem l2_normalize_unit_norm_witness :
    Real.sqrt (∑ i in Finset.range 12, (vec34 i : ℝ) ^ 2) = 5 ∧
    (List.range 12).map (l2_normalize Real.sqrt vec34 12)
      = [3 / 5, 4 / 5, 0, 0, 0, 0, 0, 0, 0, 0, 0, 0] := by
  have h25 : ∑ i in Finset.range 12, (vec34 i : ℝ) ^ 2 = 5 ^ 2 := by
    simp [Finset.sum_range_succ, vec34]
    norm_num
  have h5 : Real.sqrt (∑ i in Finset.range 12, (vec34 i : ℝ) ^ 2) = 5 := by
    rw [h25]
    exact Real.sqrt_sq (by norm_num)
  have h := (l2_normalize_unit_norm vec34 12 (by rw [h5]; norm_num)).1
  refine ⟨h5, ?_⟩
  simp only [List.range_succ, List.range_zero, List.nil_append, List.cons_append, List.map_cons,
    List.map_nil]
  rw [h 0 (by decide), h 1 (by decide), h 2 (by decide), h 3 (by decide), h 4 (by decide),
    h 5 (by decide), h 6 (by decide), h 7 (by decide), h 8 (by decide), h 9 (by decide),
    h 10 (by decide), h 11 (by decide), h5]
  simp [vec34]

section AggregateLemmas

theorem successCount_succ (m : Nat) (reads : Nat → Bool × (Nat → Nat)) :
    successCount (m + 1) reads = successCount m reads + if (reads m).1 then 1 else 0 := by
  unfold successCount
  rw [Finset.range_succ, Finset.filter_insert]
  by_cases h : (reads m).1 = true
  · rw [if_pos h, if_pos h, Finset.card_insert_of_not_mem (by simp)]
  · rw [if_neg h, if_neg h, Nat.add_zero]

theorem successSum_succ (m : Nat) (reads : Nat → Bool × (Nat → Nat)) (ch : Nat) :
    successSum (m + 1) reads ch
      = successSum m reads ch + if (reads m).1 then (reads m).2 ch else 0 := by
  unfold successSum
  rw [Finset.range_succ, Finset.filter_insert]
  by_cases h : (reads m).1 = true
  · rw [if_pos h, if_pos h, Finset.sum_insert (by simp), Nat.add_comm]
  · rw [if_neg h, if_neg h, Nat.add_zero]

theorem successCount_le (m : Nat) (reads : Nat → Bool × (Nat → Nat)) :
    successCount m reads ≤ m := by
  induction m with
  | zero => simp [successCount]
  | succ m ih =>
    rw [successCount_succ]
    split <;> omega

/-- The exact channel sum over 16-bit readings is at most `65535` per
successful read. -/
theorem successSum_le (m : Nat) (reads : Nat → Bool × (Nat → Nat)) (ch : Nat)
    (h16 : ∀ i, i < m → (reads i).2 ch < U16) :
    successSum m reads ch ≤ successCount m reads * 65535 := by
  induction m with
  | zero => simp [successSum, successCount]
  | succ m ih =>
    have ih1 := ih (fun i hi => h16 i (by omega))
    have hm := h16 m (by omega)
    unfold U16 at hm
    rw [successSum_succ, successCount_succ]
    split <;> omega

theorem accumulate_apply (readings accumulated : Nat → Nat) (ch : Nat) :
    accumulate readings accumulated ch
      = if ch < numChannels then (accumulated ch + readings ch) % U32 else accumulated ch := by
  unfold accumulate
  exact forLoop_update_apply (fun ch x => (x + readings ch) % U32) accumulated numChannels ch

theorem average_apply (accumulated : Nat → Nat) (k : Nat) (readings : Nat → Nat) (ch : Nat) :
    average accumulated k readings ch
      = if ch < numChannels then (accumulated ch / k) % U16 else readings ch := by
  unfold average
  exact forLoop_update_apply (fun ch _ => (accumulated ch / k) % U16) readings numChannels ch

theorem sampleBody_successfulReads (n sampleIntervalMs : Nat)
    (reads : Nat → Bool × (Nat → Nat)) (isr : Nat → Bool) (i : Nat) (s : SampleState) :
    (sampleBody n sampleIntervalMs reads isr i s).successfulReads
      = s.successfulReads + if (reads i).1 then 1 else 0 := by
  unfold sampleBody
  by_cases hr : (reads i).1 = true <;> by_cases hlt : i < n - 1 <;> simp [hr, hlt]

theorem sampleBody_accumulated (n sampleIntervalMs : Nat)
    (reads : Nat → Bool × (Nat → Nat)) (isr : Nat → Bool) (i : Nat) (s : SampleState) :
    (sampleBody n sampleIntervalMs reads isr i s).accumulated
      = if (reads i).1 then accumulate (reads i).2 s.accumulated else s.accumulated := by
  unfold sampleBody
  by_cases hr : (reads i).1 = true <;> by_cases hlt : i < n - 1 <;> simp [hr, hlt]

theorem sampleBody_sensorReady (n sampleIntervalMs : Nat)
    (reads : Nat → Bool × (Nat → Nat)) (isr : Nat → Bool) (i : Nat) (s : SampleState) :
    (sampleBody n sampleIntervalMs reads isr i s).sensorReady = (s.sensorReady || isr i) := by
  unfold sampleBody
  by_cases hr : (reads i).1 = true <;> by_cases hlt : i < n - 1 <;> simp [hr, hlt]

theorem sampleBody_trace (n sampleIntervalMs : Nat)
    (reads : Nat → Bool × (Nat → Nat)) (isr : Nat → Bool) (i : Nat) (s : SampleState) :
    (sampleBody n sampleIntervalMs reads isr i s).trace
      = s.trace ++ if i < n - 1
          then [Effect.delay (readDelay (s.sensorReady || isr i) sampleIntervalMs n)]
          else [] := by
  unfold sampleBody
  by_cases hr : (reads i).1 = true <;> by_cases hlt : i < n - 1 <;> simp [hr, hlt]

/-- Invariant of the sampling loop after `m` iterations: the success counter,
the accumulators (modulo the width of `uint32_t`) and the shape of the trace. -/
theorem sampleLoop_inv (n sampleIntervalMs : Nat) (reads : Nat → Bool × (Nat → Nat))
    (isr : Nat → Bool) (m : Nat) :
    (forLoop m (sampleBody n sampleIntervalMs reads isr)
        { accumulated := fun _ => 0, successfulReads := 0, sensorReady := false,
          trace := [] }).successfulReads = successCount m reads ∧
    (∀ ch, (forLoop m (sampleBody n sampleIntervalMs reads isr)
        { accumulated := fun _ => 0, successfulReads := 0, sensorReady := false,
          trace := [] }).accumulated ch
        = if ch < numChannels then successSum m reads ch % U32 else 0) ∧
    (∀ e, e ∈ (forLoop m (sampleBody n sampleIntervalMs reads isr)
        { accumulated := fun _ => 0, successfulReads := 0, sensorReady := false,
          trace := [] }).trace → ∃ ms, e = Effect.delay ms) := by
  induction m with
  | zero =>
    refine ⟨by simp [forLoop, successCount], ?_, by simp [forLoop]⟩
    intro ch
    simp [forLoop, successSum, U32]
  | succ m ih =>
    obtain ⟨h1, h2, h3⟩ := ih
    rw [forLoop_succ, successCount_succ, sampleBody_successfulReads, sampleBody_accumulated,
      sampleBody_trace]
    refine ⟨by rw [h1], ?_, ?_⟩
    · intro ch
      rw [successSum_succ]
      by_cases hr : (reads m).1 = true
      · simp only [hr, if_true]
        rw [accumulate_apply, h2 ch]
        by_cases hc : ch < numChannels
        · simp only [hc, if_true]
          exact Nat.mod_add_mod _ _ _
        · simp [hc]
      · simp only [hr, if_false, Bool.false_eq_true]
        rw [h2 ch, Nat.add_zero]
    · intro e he
      rcases List.mem_append.mp he with h | h
      · exact h3 e h
      · by_cases hlt : m < n - 1
        · rw [if_pos hlt] at h
          exact ⟨_, List.mem_singleton.mp h⟩
        · rw [if_neg hlt] at h
          exact absurd h (List.not_mem_nil e)

theorem sampleLoop_successfulReads (sampleIntervalMs : Nat)
    (reads : Nat → Bool × (Nat → Nat)) (isr : Nat → Bool) :
    (sampleLoop numSamples sampleIntervalMs reads isr).successfulReads
      = successCount numSamples reads :=
  (sampleLoop_inv numSamples sampleIntervalMs reads isr numSamples).1

/-- With 16-bit readings the five additions never wrap: each accumulator holds
the exact sum over the successful reads. -/
theorem sampleLoop_accumulated (sampleIntervalMs : Nat)
    (reads : Nat → Bool × (Nat → Nat)) (isr : Nat → Bool) (ch : Nat) (hch : ch < numChannels)
    (h16 : ∀ i, i < numSamples → (reads i).2 ch < U16) :
    (sampleLoop numSamples sampleIntervalMs reads isr).accumulated ch
      = successSum numSamples reads ch := by
  have h := (sampleLoop_inv numSamples sampleIntervalMs reads isr numSamples).2.1 ch
  unfold sampleLoop
  rw [h, if_pos hch]
  apply Nat.mod_eq_of_lt
  have h1 := successSum_le numSamples reads ch h16
  have h2 := successCount_le numSamples reads
  unfold numSamples at h1 h2
  unfold U32 numSamples
  omega

theorem emitError_ne_emitReading (timestamp : Nat) (readings : Nat → Nat) :
    emitError ≠ emitReading timestamp readings := by
  intro h
  have := congrArg List.length h
  simp [emitError, emitReading] at this

end AggregateLemmas

/-- C6. In one aggregation cycle, for every outcome of the 5 calls of
`readAllChannels` (16-bit buffer contents, at least one call returning true),
the reading record is emitted and each reported channel equals
`floor(S_ch / successfulReads)`, where `S_ch` is the exact sum of that channel
over the successful reads only and `successfulReads` is the number of calls
that returned true. -/
theorem aggregate_mean_over_successful (inp : LoopInput) (st : LoopState)
    (h16 : ∀ i, i < numSamples → ∀ ch, ch < numChannels → (inp.reads i).2 ch < U16)
    (hok : 0 < successCount numSamples inp.reads) :
    ∃ readings : Nat → Nat,
      (samplingPass inp st).2
        = (sampleLoop numSamples st.sampleIntervalMs inp.reads inp.isr).trace
            ++ emitReading inp.timestamp readings ∧
      ∀ ch, ch < numChannels →
        readings ch = successSum numSamples inp.reads ch / successCount numSamples inp.reads := by
  refine ⟨average (sampleLoop numSamples st.sampleIntervalMs inp.reads inp.isr).accumulated
    (sampleLoop numSamples st.sampleIntervalMs inp.reads inp.isr).successfulReads
    (inp.reads (numSamples - 1)).2, ?_, ?_⟩
  · unfold samplingPass report
    simp only [sampleLoop_successfulReads, gt_iff_lt, hok, if_true]
  · intro ch hch
    rw [average_apply, if_pos hch, sampleLoop_successfulReads,
      sampleLoop_accumulated _ _ _ ch hch (fun i hi => h16 i hi ch hch)]
    apply Nat.mod_eq_of_lt
    have h1 := successSum_le numSamples inp.reads ch (fun i hi => h16 i hi ch hch)
    have h2 : successSum numSamples inp.reads ch / successCount numSamples inp.reads ≤ 65535 :=
      Nat.div_le_of_le_mul h1
    unfold U16
    omega

/-- C6, with 3 of 5 reads succeeding at 10, 30 and 50: the divisor is 3 and
every reported channel is `90 / 3`. -/
theorem aggregate_mean_over_successful_witness :
    successCount numSamples sampleInput.reads = 3 ∧
    successSum numSamples sampleInput.reads 0 = 90 ∧
    ∃ readings : Nat → Nat,
      (samplingPass sampleInput LoopState.init).2
        = (sampleLoop numSamples LoopState.init.sampleIntervalMs sampleInput.reads
            sampleInput.isr).trace ++ emitReading sampleInput.timestamp readings ∧
      ∀ ch, ch < numChannels →
        readings ch
          = successSum numSamples sampleInput.reads ch
              / successCount numSamples sampleInput.reads :=
  ⟨by decide, by decide,
    aggregate_mean_over_successful sampleInput LoopState.init
      (by
        intro i hi ch _
        unfold numSamples at hi
        simp only [sampleInput, U16]
        omega)
      (by decide)⟩

/-- C7. In one aggregation cycle the sampling loop emits delays only; if all
5 calls of `readAllChannels` fail, no average is computed and exactly the error
record follows; and a reading record follows if and only if at least one call
succeeded. -/
theorem aggregate_error_iff_no_success (inp : LoopInput) (st : LoopState) :
    emitError = [Effect.println "\x7b\"error\":\"Failed to read sensor\"\x7d", Effect.flush] ∧
    (sampleLoop numSamples st.sampleIntervalMs inp.reads inp.isr).successfulReads
      = successCount numSamples inp.reads ∧
    (∀ e, e ∈ (sampleLoop numSamples st.sampleIntervalMs inp.reads inp.isr).trace →
      ∃ ms, e = Effect.delay ms) ∧
    (successCount numSamples inp.reads = 0 →
      report inp.timestamp (inp.reads (numSamples - 1)).2
          (sampleLoop numSamples st.sampleIntervalMs inp.reads inp.isr) = (none, emitError) ∧
      (samplingPass inp st).2
        = (sampleLoop numSamples st.sampleIntervalMs inp.reads inp.isr).trace ++ emitError) ∧
    ((∃ readings : Nat → Nat,
        (samplingPass inp st).2
          = (sampleLoop numSamples st.sampleIntervalMs inp.reads inp.isr).trace
              ++ emitReading inp.timestamp readings)
      ↔ 0 < successCount numSamples inp.reads) := by
  have hcnt := sampleLoop_successfulReads st.sampleIntervalMs inp.reads inp.isr
  refine ⟨rfl, hcnt,
    (sampleLoop_inv numSamples st.sampleIntervalMs inp.reads inp.isr numSamples).2.2, ?_, ?_⟩
  · intro h0
    unfold samplingPass report
    simp [hcnt, h0]
  · constructor
    · rintro ⟨readings, hr⟩
      by_contra hnot
      have h0 : successCount numSamples inp.reads = 0 := by omega
      unfold samplingPass report at hr
      simp only [hcnt, h0, gt_iff_lt, lt_self_iff_false, if_false] at hr
      exact emitError_ne_emitReading _ _ (List.append_cancel_left hr)
    · intro hpos
      refine ⟨average (sampleLoop numSamples st.sampleIntervalMs inp.reads inp.isr).accumulated
        (sampleLoop numSamples st.sampleIntervalMs inp.reads inp.isr).successfulReads
        (inp.reads (numSamples - 1)).2, ?_⟩
      unfold samplingPass report
      simp only [hcnt, gt_iff_lt, hpos, if_true]

/-! ### Command handling -/

theorem samplingPass_sampleIntervalMs (inp : LoopInput) (st : LoopState) :
    (samplingPass inp st).1.sampleIntervalMs = st.sampleIntervalMs := rfl

/-- The interval check never changes `sampleIntervalMs`. -/
theorem intervalStep_sampleIntervalMs (inp : LoopInput) (st : LoopState) :
    (intervalStep inp st).1.sampleIntervalMs = st.sampleIntervalMs := by
  unfold intervalStep
  simp only [Bool.or_true, if_true]
  split_ifs <;> simp [samplingPass_sampleIntervalMs]

/-- C10. For each supported rate `v` of 0.25, 0.5, 1, 2, 4, 8 (with `atof`
returning `v` on its text), a call of `loop()` that receives the command
`RATE:<v>` leaves `sampleIntervalMs` at 4000, 2000, 1000, 500, 250, 125
respectively. -/
theorem rate_command_sets_interval (inp : LoopInput) (st : LoopState) (t : String × ℚ × Nat)
    (ht : t ∈ rateTable) (hs : inp.serial = some ("RATE:" ++ t.1).toList)
    (ha : inp.atof t.1.toList = t.2.1) :
    (commandStep inp st).1.sampleIntervalMs = t.2.2 ∧
    (loop inp st).1.sampleIntervalMs = t.2.2 := by
  have hloop : (loop inp st).1.sampleIntervalMs = (commandStep inp st).1.sampleIntervalMs :=
    intervalStep_sampleIntervalMs inp (commandStep inp st).1
  rw [hloop, and_self]
  unfold commandStep
  rw [hs]
  simp only [rateTable, List.mem_cons, List.mem_singleton, List.not_mem_nil, or_false] at ht
  rcases ht with rfl | rfl | rfl | rfl | rfl | rfl
  · have h1 : cString (trimInput ("RATE:" ++ "0.25").toList) = "RATE:0.25".toList := by decide
    have h2 : List.drop 5 "RATE:0.25".toList = "0.25".toList := by decide
    simp only [handleCommand, h1, h2]
    rw [if_neg (by decide), if_neg (by decide), if_pos (by decide), ha]
    simp [rateInterval]
  · have h1 : cString (trimInput ("RATE:" ++ "0.5").toList) = "RATE:0.5".toList := by decide
    have h2 : List.drop 5 "RATE:0.5".toList = "0.5".toList := by decide
    simp only [handleCommand, h1, h2]
    rw [if_neg (by decide), if_neg (by decide), if_pos (by decide), ha]
    norm_num [rateInterval]
  · have h1 : cString (trimInput ("RATE:" ++ "1").toList) = "RATE:1".toList := by decide
    have h2 : List.drop 5 "RATE:1".toList = "1".toList := by decide
    simp only [handleCommand, h1, h2]
    rw [if_neg (by decide), if_neg (by decide), if_pos (by decide), ha]
    norm_num [rateInterval]
  · have h1 : cString (trimInput ("RATE:" ++ "2").toList) = "RATE:2".toList := by decide
    have h2 : List.drop 5 "RATE:2".toList = "2".toList := by decide
    simp only [handleCommand, h1, h2]
    rw [if_neg (by decide), if_neg (by decide), if_pos (by decide), ha]
    norm_num [rateInterval]
  · have h1 : cString (trimInput ("RATE:" ++ "4").toList) = "RATE:4".toList := by decide
    have h2 : List.drop 5 "RATE:4".toList = "4".toList := by decide
    simp only [handleCommand, h1, h2]
    rw [if_neg (by decide), if_neg (by decide), if_pos (by decide), ha]
    norm_num [rateInterval]
  · have h1 : cString (trimInput ("RATE:" ++ "8").toList) = "RATE:8".toList := by decide
    have h2 : List.drop 5 "RATE:8".toList = "8".toList := by decide
    simp only [handleCommand, h1, h2]
    rw [if_neg (by decide), if_neg (by decide), if_pos (by decide), ha]
    norm_num [rateInterval]

/-- C10, at `RATE:2` received in the initial state, with the decimal reading
of `atof`: the period becomes exactly 500 ms. -/
theorem rate_command_sets_interval_witness :
    (loop { sampleInput with serial := some "RATE:2".toList } LoopState.init).1.sampleIntervalMs
      = 500 :=
  (rate_command_sets_interval { sampleInput with serial := some "RATE:2".toList }
    LoopState.init ("2", 2, 500) (by simp [rateTable]) (by decide)
    (by simp [sampleInput, atofDecimal])).2

theorem rateInterval_eq_none (v : ℚ) (h : ∀ t, t ∈ rateTable → v ≠ t.2.1) :
    rateInterval v = none := by
  have h1 := h ("0.25", 1 / 4, 4000) (by simp [rateTable])
  have h2 := h ("0.5", 1 / 2, 2000) (by simp [rateTable])
  have h3 := h ("1", 1, 1000) (by simp [rateTable])
  have h4 := h ("2", 2, 500) (by simp [rateTable])
  have h5 := h ("4", 4, 250) (by simp [rateTable])
  have h6 := h ("8", 8, 125) (by simp [rateTable])
  simp only at h1 h2 h3 h4 h5 h6
  unfold rateInterval
  rw [if_neg h1, if_neg h2, if_neg h3, if_neg h4, if_neg h5, if_neg h6]

/-- C11, amended. For every received command whose text is neither `1` nor `0`
and which is either not a `RATE:` command or a `RATE:` command for which the
`float` obtained from `atof` is none of 0.25, 0.5, 1, 2, 4, 8: the command
handling leaves the whole state, `sampleIntervalMs` included, as it was,
`loop()` ends with the same `sampleIntervalMs`, and the reply is the
`Invalid rate` error for a `RATE:` command and the `Unknown command` error
otherwise, never a status reply. -/
theorem invalid_command_rejected (inp : LoopInput) (st : LoopState) (bytes : List Char)
    (hs : inp.serial = some bytes)
    (h1 : cString (trimInput bytes) ≠ "1".toList)
    (h0 : cString (trimInput bytes) ≠ "0".toList)
    (hrate : (cString (trimInput bytes)).take 5 = "RATE:".toList →
      ∀ t, t ∈ rateTable → inp.atof ((cString (trimInput bytes)).drop 5) ≠ t.2.1) :
    (commandStep inp st).1 = st ∧
    (loop inp st).1.sampleIntervalMs = st.sampleIntervalMs ∧
    (commandStep inp st).2 =
      [Effect.println
        (if (cString (trimInput bytes)).take 5 = "RATE:".toList
          then "\x7b\"error\":\"Invalid rate. Supported: 0.25, 0.5, 1, 2, 4, 8 Hz\"\x7d"
          else "\x7b\"error\":\"Unknown command\"\x7d"),
       Effect.flush] := by
  have hloop : (loop inp st).1.sampleIntervalMs = (commandStep inp st).1.sampleIntervalMs :=
    intervalStep_sampleIntervalMs inp (commandStep inp st).1
  have hcmd : commandStep inp st = handleCommand inp.atof st (trimInput bytes) := by
    unfold commandStep
    rw [hs]
  rw [hloop, hcmd]
  unfold handleCommand
  simp only
  rw [if_neg h1, if_neg h0]
  by_cases hp : (cString (trimInput bytes)).take 5 = "RATE:".toList
  · rw [if_pos hp, if_pos hp, rateInterval_eq_none _ (hrate hp)]
    exact ⟨rfl, rfl, rfl⟩
  · rw [if_neg hp, if_neg hp]
    exact ⟨rfl, rfl, rfl⟩

/-- C11, amended, at `RATE:3` received in the initial state, with the decimal
reading of `atof`: the period stays 1000 ms and the reply is the
`Invalid rate` error. -/
theorem invalid_command_rejected_witness :
    (loop rate3Input LoopState.init).1.sampleIntervalMs = 1000 ∧
    (commandStep rate3Input LoopState.init).2 =
      [Effect.println
        (if (cString (trimInput "RATE:3".toList)).take 5 = "RATE:".toList
          then "\x7b\"error\":\"Invalid rate. Supported: 0.25, 0.5, 1, 2, 4, 8 Hz\"\x7d"
          else "\x7b\"error\":\"Unknown command\"\x7d"),
       Effect.flush] :=
  (invalid_command_rejected rate3Input LoopState.init "RATE:3".toList rfl (by decide)
    (by decide)
    (by
      intro _ t ht
      have hv : rate3Input.atof ((cString (trimInput "RATE:3".toList)).drop 5) = 3 := by
        have hd : (cString (trimInput "RATE:3".toList)).drop 5 = "3".toList := by decide
        rw [hd]
        simp [rate3Input, sampleInput, atofDecimal]
      rw [hv]
      simp only [rateTable, List.mem_cons, List.mem_singleton, List.not_mem_nil, or_false] at ht
      rcases ht with rfl | rfl | rfl | rfl | rfl | rfl <;> norm_num)).2

/-! ### Aggregation: identical readings, accumulator width, delays -/

/-- When every successful read leaves `v` in channel `ch`, the exact channel
sum is `v` times the number of successful reads. -/
theorem successSum_const (m : Nat) (reads : Nat → Bool × (Nat → Nat)) (ch v : Nat)
    (h : ∀ i, i < m → (reads i).1 = true → (reads i).2 ch = v) :
    successSum m reads ch = successCount m reads * v := by
  induction m with
  | zero => simp [successSum, successCount]
  | succ m ih =>
    rw [successSum_succ, successCount_succ, ih (fun i hi => h i (by omega))]
    by_cases hr : (reads m).1 = true
    · rw [if_pos hr, if_pos hr, h m (by omega) hr, Nat.add_mul, Nat.one_mul]
    · rw [if_neg hr, if_neg hr, Nat.add_zero, Nat.add_zero]

/-- C12. For every 12-channel 16-bit reading `r` and every `k` with
`1 <= k <= 5`: if exactly `k` of the 5 reads of an aggregation cycle succeed and
each successful read returns `r`, the reading record is emitted and the
averaged reading it reports equals `r` channel for channel. -/
theorem average_of_identical_readings (inp : LoopInput) (st : LoopState) (r : Nat → Nat)
    (k : Nat) (hk1 : 1 ≤ k) (hk5 : k ≤ 5)
    (hcount : successCount numSamples inp.reads = k)
    (h16 : ∀ ch, ch < numChannels → r ch < U16)
    (hr : ∀ i, i < numSamples → (inp.reads i).1 = true →
      ∀ ch, ch < numChannels → (inp.reads i).2 ch = r ch) :
    ∃ readings : Nat → Nat,
      (samplingPass inp st).2
        = (sampleLoop numSamples st.sampleIntervalMs inp.reads inp.isr).trace
            ++ emitReading inp.timestamp readings ∧
      ∀ ch, ch < numChannels → readings ch = r ch := by
  refine ⟨average (sampleLoop numSamples st.sampleIntervalMs inp.reads inp.isr).accumulated
    (sampleLoop numSamples st.sampleIntervalMs inp.reads inp.isr).successfulReads
    (inp.reads (numSamples - 1)).2, ?_, ?_⟩
  · unfold samplingPass report
    have hpos : 0 < successCount numSamples inp.reads := by omega
    simp only [sampleLoop_successfulReads, gt_iff_lt, hpos, if_true]
  · intro ch hch
    have hsum : successSum numSamples inp.reads ch = k * r ch := by
      rw [successSum_const numSamples inp.reads ch (r ch) (fun i hi hs => hr i hi hs ch hch),
        hcount]
    have hacc := (sampleLoop_inv numSamples st.sampleIntervalMs inp.reads inp.isr
      numSamples).2.1 ch
    have hr16 := h16 ch hch
    unfold U16 at hr16
    have hlt : k * r ch < U32 := by
      have : k * r ch ≤ 5 * r ch := Nat.mul_le_mul_right _ hk5
      unfold U32
      omega
    rw [average_apply, if_pos hch, sampleLoop_successfulReads, hcount]
    unfold sampleLoop
    rw [hacc, if_pos hch, hsum, Nat.mod_eq_of_lt hlt, Nat.mul_div_cancel_left _ (by omega)]
    apply Nat.mod_eq_of_lt
    unfold U16
    exact hr16

/-- C12, with reads 0, 1 and 2 returning 300 in every channel and reads 3 and
4 failing: every reported channel is 300. -/
theorem average_of_identical_readings_witness :
    successCount numSamples
      ({ sampleInput with reads := fun i => (decide (i < 3), fun _ => 300) } : LoopInput).reads
        = 3 ∧
    ∃ readings : Nat → Nat,
      (samplingPass { sampleInput with reads := fun i => (decide (i < 3), fun _ => 300) }
          LoopState.init).2
        = (sampleLoop numSamples LoopState.init.sampleIntervalMs
            (fun i => (decide (i < 3), fun _ => 300)) sampleInput.isr).trace
            ++ emitReading sampleInput.timestamp readings ∧
      ∀ ch, ch < numChannels → readings ch = 300 :=
  ⟨by decide,
    average_of_identical_readings
      { sampleInput with reads := fun i => (decide (i < 3), fun _ => 300) }
      LoopState.init (fun _ => 300) 3 (by decide) (by decide) (by decide)
      (fun _ _ => by simp [U16]) (fun _ _ _ _ _ => rfl)⟩

/-- C13. For every sample count `n <= 255` and every sequence of reads with
16-bit channel values, the 32-bit accumulators never wrap: after any number
`m <= n` of iterations each accumulator holds the exact sum over the
successful reads, that sum is below `2^32`, and the modular addition of the
next reading equals the exact addition. -/
theorem accumulator_never_wraps (n sampleIntervalMs : Nat) (reads : Nat → Bool × (Nat → Nat))
    (isr : Nat → Bool) (hn : n ≤ 255)
    (h16 : ∀ i, i < n → ∀ ch, ch < numChannels → (reads i).2 ch < U16)
    (m : Nat) (hm : m ≤ n) (ch : Nat) (hch : ch < numChannels) :
    (forLoop m (sampleBody n sampleIntervalMs reads isr)
        { accumulated := fun _ => 0, successfulReads := 0, sensorReady := false,
          trace := [] }).accumulated ch = successSum m reads ch ∧
    successSum m reads ch < U32 ∧
    (m < n →
      (successSum m reads ch + (reads m).2 ch) % U32
        = successSum m reads ch + (reads m).2 ch) := by
  have hacc := (sampleLoop_inv n sampleIntervalMs reads isr m).2.1 ch
  have hle := successSum_le m reads ch (fun i hi => h16 i (by omega) ch hch)
  have hcnt := successCount_le m reads
  have hmul : successCount m reads * 65535 ≤ 255 * 65535 :=
    Nat.mul_le_mul_right _ (by omega)
  have hlt : successSum m reads ch < U32 := by
    unfold U32
    omega
  refine ⟨?_, hlt, ?_⟩
  · rw [hacc, if_pos hch, Nat.mod_eq_of_lt hlt]
  · intro hmn
    have h := h16 m hmn ch hch
    unfold U16 at h
    apply Nat.mod_eq_of_lt
    unfold U32
    omega

/-- C13, at the code's `numSamples = 5` with every read returning the largest
16-bit value: after the 5 additions the accumulator holds `5 * 65535`. -/
theorem accumulator_never_wraps_witness :
    (sampleLoop numSamples 1000 (fun _ => (true, fun _ => 65535))
        (fun _ => false)).accumulated 0
      = successSum numSamples (fun _ => (true, fun _ => 65535)) 0 ∧
    successSum numSamples (fun _ => (true, fun _ => 65535)) 0 = 327675 :=
  ⟨(accumulator_never_wraps numSamples 1000 (fun _ => (true, fun _ => 65535)) (fun _ => false)
      (by decide) (fun _ _ _ _ => by simp [U16]) numSamples (le_refl _) 0 (by decide)).1,
    by decide⟩

section DelayLemmas

theorem readyAfter_succ (isr : Nat → Bool) (m : Nat) :
    readyAfter isr (m + 1) = (readyAfter isr m || isr m) := rfl

/-- The flag `sensorReady` after `m` iterations of the sampling loop. -/
theorem sampleLoop_ready (n sampleIntervalMs : Nat) (reads : Nat → Bool × (Nat → Nat))
    (isr : Nat → Bool) (m : Nat) :
    (forLoop m (sampleBody n sampleIntervalMs reads isr)
        { accumulated := fun _ => 0, successfulReads := 0, sensorReady := false,
          trace := [] }).sensorReady = readyAfter isr m := by
  induction m with
  | zero => rfl
  | succ m ih => rw [forLoop_succ, sampleBody_sensorReady, ih, readyAfter_succ]

/-- Iteration `i` of the sampling loop appends its delay to the trace, and the
last iteration appends nothing. -/
theorem sampleLoop_trace_succ (n sampleIntervalMs : Nat) (reads : Nat → Bool × (Nat → Nat))
    (isr : Nat → Bool) (i : Nat) :
    (forLoop (i + 1) (sampleBody n sampleIntervalMs reads isr)
        { accumulated := fun _ => 0, successfulReads := 0, sensorReady := false,
          trace := [] }).trace
      = (forLoop i (sampleBody n sampleIntervalMs reads isr)
          { accumulated := fun _ => 0, successfulReads := 0, sensorReady := false,
            trace := [] }).trace
        ++ if i < n - 1
          then [Effect.delay (readDelay (readyAfter isr (i + 1)) sampleIntervalMs n)]
          else [] := by
  rw [forLoop_succ, sampleBody_trace, sampleLoop_ready, readyAfter_succ]

/-- The trace of the sampling loop after `m` iterations. -/
theorem sampleLoop_trace (n sampleIntervalMs : Nat) (reads : Nat → Bool × (Nat → Nat))
    (isr : Nat → Bool) (m : Nat) :
    (forLoop m (sampleBody n sampleIntervalMs reads isr)
        { accumulated := fun _ => 0, successfulReads := 0, sensorReady := false,
          trace := [] }).trace
      = (List.range (min m (n - 1))).map
          (fun i => Effect.delay (readDelay (readyAfter isr (i + 1)) sampleIntervalMs n)) := by
  induction m with
  | zero => simp [forLoop]
  | succ m ih =>
    rw [sampleLoop_trace_succ, ih]
    by_cases hlt : m < n - 1
    · rw [if_pos hlt, Nat.min_eq_left (by omega), Nat.min_eq_left (by omega), List.range_succ,
        List.map_append]
      rfl
    · rw [if_neg hlt, List.append_nil, Nat.min_eq_right (by omega), Nat.min_eq_right (by omega)]

theorem delaysOf_append (l1 l2 : List Effect) :
    delaysOf (l1 ++ l2) = delaysOf l1 ++ delaysOf l2 := by
  induction l1 with
  | nil => rfl
  | cons e l ih => cases e <;> simp [delaysOf, ih]

theorem delaysOf_map_delay (f : Nat → Nat) (l : List Nat) :
    delaysOf (l.map (fun i => Effect.delay (f i))) = l.map f := by
  induction l with
  | nil => rfl
  | cons a l ih => simp [delaysOf, ih]

theorem delaysOf_report (timestamp : Nat) (readings0 : Nat → Nat) (s : SampleState) :
    delaysOf (report timestamp readings0 s).2 = [] := by
  unfold report
  split <;> rfl

/-- The delays of one sampling pass: four, one after each read but the last. -/
theorem delaysOf_samplingPass (inp : LoopInput) (st : LoopState) :
    delaysOf (samplingPass inp st).2
      = (List.range (numSamples - 1)).map
          (fun i => readDelay (readyAfter inp.isr (i + 1)) st.sampleIntervalMs numSamples) := by
  unfold samplingPass
  simp only
  rw [delaysOf_append, delaysOf_report, List.append_nil]
  unfold sampleLoop
  rw [sampleLoop_trace, Nat.min_eq_right (by decide)]
  exact delaysOf_map_delay
    (fun i => readDelay (readyAfter inp.isr (i + 1)) st.sampleIntervalMs numSamples) _

/-- At each supported period four delays, whatever the flag, fit in the period. -/
theorem four_readDelay_le (b : Bool) (I : Nat) (hI : I ∈ supportedIntervals) :
    4 * readDelay b I numSamples ≤ I := by
  simp only [supportedIntervals, List.mem_cons, List.mem_singleton, List.not_mem_nil,
    or_false] at hI
  rcases hI with rfl | rfl | rfl | rfl | rfl | rfl <;> cases b <;> decide

end DelayLemmas

/-- C14. For every supported sampling period `I` of 4000, 2000, 1000, 500,
250, 125 ms and every behaviour of the interrupt routine, hence every value of
`sensorReady` at each read, one aggregation cycle sleeps exactly 4 delays and
their total is at most `I`. -/
theorem total_delay_le_interval (inp : LoopInput) (st : LoopState)
    (hI : st.sampleIntervalMs ∈ supportedIntervals) :
    (delaysOf (samplingPass inp st).2).length = 4 ∧
    totalDelay (samplingPass inp st).2 ≤ st.sampleIntervalMs := by
  unfold totalDelay
  rw [delaysOf_samplingPass]
  refine ⟨by simp [numSamples], ?_⟩
  have h1 := four_readDelay_le (readyAfter inp.isr 1) _ hI
  have h2 := four_readDelay_le (readyAfter inp.isr 2) _ hI
  have h3 := four_readDelay_le (readyAfter inp.isr 3) _ hI
  have h4 := four_readDelay_le (readyAfter inp.isr 4) _ hI
  have hsum : ((List.range (numSamples - 1)).map
      (fun i => readDelay (readyAfter inp.isr (i + 1)) st.sampleIntervalMs numSamples)).sum
      = readDelay (readyAfter inp.isr 1) st.sampleIntervalMs numSamples
        + readDelay (readyAfter inp.isr 2) st.sampleIntervalMs numSamples
        + readDelay (readyAfter inp.isr 3) st.sampleIntervalMs numSamples
        + readDelay (readyAfter inp.isr 4) st.sampleIntervalMs numSamples := by
    simp [numSamples, List.range_succ, Nat.add_assoc]
  rw [hsum]
  omega

/-- C14, at the fastest rate, 125 ms, with no interrupt: the four delays are
20 ms each and total 80 ms. -/
theorem total_delay_le_interval_witness :
    totalDelay (samplingPass sampleInput { LoopState.init with sampleIntervalMs := 125 }).2
      = 80 ∧
    totalDelay (samplingPass sampleInput { LoopState.init with sampleIntervalMs := 125 }).2
      ≤ 125 :=
  ⟨by decide,
    (total_delay_le_interval sampleInput { LoopState.init with sampleIntervalMs := 125 }
      (by decide)).2⟩

/-! ### Softmax: shift invariance, range of the class index, denominator -/

section ShiftLemmas

variable {α : Type} [LinearOrderedField α]

theorem specMax_add_const (f : Nat → α) (c : α) (n : Nat) :
    specMax (fun j => f j + c) n = specMax f n + c := by
  induction n with
  | zero => simp [specMax]
  | succ n ih => rw [specMax_succ, specMax_succ, ih, max_add_add_right]

end ShiftLemmas

/-- C15. For every non-empty logit vector and every real constant `c`,
`softmax` applied to the logits with `c` added to every entry leaves the same
probabilities as `softmax` applied to the original logits. -/
theorem softmax_shift_invariant (input : Nat → ℝ) (c : ℝ) (length i : Nat)
    (hi : i < length) :
    softmax Real.exp (fun j => input j + c) length i = softmax Real.exp input length i := by
  rw [softmax_apply, softmax_apply, softmaxSum_eq, softmaxSum_eq, softmaxMax_eq_specMax,
    softmaxMax_eq_specMax, specMax_add_const]
  simp only [hi, if_true, add_sub_add_right_eq_sub]

/-- C15, at the logits `[0, 1, 2]` shifted by 5, first entry. -/
theorem softmax_shift_invariant_witness :
    0 < 3 ∧
    softmax Real.exp (fun j => (j : ℝ) + 5) 3 0 = softmax Real.exp (fun j => (j : ℝ)) 3 0 :=
  ⟨by decide, softmax_shift_invariant (fun j => (j : ℝ)) 5 3 0 (by decide)⟩

/-- C16. For every model with `output_size >= 1` and every input, the class
index returned by `predict` is below `output_size`; for the model built by
`setup()` with `OUTPUT_NODES` outputs the index is therefore a valid index
into arrays of `OUTPUT_NODES` entries such as `output_probs`. -/
theorem predict_class_in_range (nn : NeuralNetwork ℝ) (input_data output_data stack : Nat → ℝ)
    (ho : 1 ≤ nn.output_size) :
    (predict Real.exp nn input_data output_data stack).best_class < nn.output_size :=
  argmax_lt _ nn.output_size (by omega)

/-- C16, at a model built by the constructor with 12 inputs, 16 hidden units
and 3 outputs: the class index is below 3. -/
theorem predict_class_in_range_witness :
    (predict Real.exp
      (NeuralNetwork.new 12 16 3 (fun i => (i : ℝ)) (fun _ => 0) (fun i => (i : ℝ)) (fun _ => 0))
      (fun _ => 1) (fun _ => 0) (fun _ => 0)).best_class < 3 :=
  predict_class_in_range
    (NeuralNetwork.new 12 16 3 (fun i => (i : ℝ)) (fun _ => 0) (fun i => (i : ℝ)) (fun _ => 0))
    (fun _ => 1) (fun _ => 0) (fun _ => 0) (by decide)

/-! ### Delay schedule and reading record -/

theorem readDelay_numSamples (b : Bool) (I : Nat) :
    readDelay b I numSamples = if b then 20 else max 20 (I / 6) := rfl

/-- C17, refuted as stated: at the default period of 1000 ms, when the
interrupt routine has set `sensorReady`, each of the four delays is 20 ms, not
the larger of 20 and `1000 / 6 = 166`. -/
theorem interrupted_delay_is_settle_time :
    delaysOf (samplingPass interruptedInput LoopState.init).2 = [20, 20, 20, 20] ∧
    max 20 (LoopState.init.sampleIntervalMs / (numSamples + 1)) = 166 := by
  constructor
  · rw [delaysOf_samplingPass]
    decide
  · decide

/-- C17, amended. In every aggregation cycle, iteration `i` of the sampling
loop appends one delay after its read when `i` is not the last iteration and
nothing when it is; that delay is 20 ms when `sensorReady` has been set by the
interrupt routine since the start of the pass and otherwise the larger of 20 ms
and `sampleIntervalMs / 6`. The pass therefore sleeps exactly these four
delays. -/
theorem read_delay_schedule (inp : LoopInput) (st : LoopState) :
    (∀ i, i < numSamples →
      (forLoop (i + 1) (sampleBody numSamples st.sampleIntervalMs inp.reads inp.isr)
          { accumulated := fun _ => 0, successfulReads := 0, sensorReady := false,
            trace := [] }).trace
        = (forLoop i (sampleBody numSamples st.sampleIntervalMs inp.reads inp.isr)
            { accumulated := fun _ => 0, successfulReads := 0, sensorReady := false,
              trace := [] }).trace
          ++ if i < numSamples - 1
            then [Effect.delay (if readyAfter inp.isr (i + 1) then 20
                    else max 20 (st.sampleIntervalMs / 6))]
            else []) ∧
    delaysOf (samplingPass inp st).2
      = (List.range (numSamples - 1)).map
          (fun i => if readyAfter inp.isr (i + 1) then 20
            else max 20 (st.sampleIntervalMs / 6)) := by
  refine ⟨?_, ?_⟩
  · intro i _
    rw [sampleLoop_trace_succ, readDelay_numSamples]
  · rw [delaysOf_samplingPass]
    simp only [readDelay_numSamples]

/-- C18, refuted as stated: the reading record holds 13 key/value pairs, the
timestamp and 12 channels, and 11 of the channel keys are named by
wavelength, not 10. -/
theorem reading_record_has_eleven_wavelength_keys :
    (recordFields (emitReading 0 (fun k => k))).length = 13 ∧
    (((recordFields (emitReading 0 (fun k => k))).map Prod.fst).filter isWavelengthKey).length
      = 11 ∧
    (((recordFields (emitReading 0 (fun k => k))).map Prod.fst).filter isWavelengthKey).length
      ≠ 10 := by
  decide

/-- C18, amended. Every emitted reading record consists of a timestamp
followed by a channels object holding exactly 12 keys in fixed order, the 11
wavelength names `410nm` to `860nm` and then `clear`, where the `k`-th key
carries the value of `readings[k]`, the averaged value of sensor channel index
`k`, for `k = 0 .. 11`. -/
theorem reading_record_fields (timestamp : Nat) (readings : Nat → Nat) :
    recordFields (emitReading timestamp readings)
      = [("timestamp".toList, timestamp),
         ("410nm".toList, readings 0), ("440nm".toList, readings 1),
         ("470nm".toList, readings 2), ("510nm".toList, readings 3),
         ("550nm".toList, readings 4), ("580nm".toList, readings 5),
         ("610nm".toList, readings 6), ("680nm".toList, readings 7),
         ("730nm".toList, readings 8), ("810nm".toList, readings 9),
         ("860nm".toList, readings 10), ("clear".toList, readings 11)] ∧
    (emitReading timestamp readings).getLast? = some Effect.flush := by
  constructor
  · rfl
  · rfl

/-! ### The sampling decision -/

section DecisionLemmas

/-- A sampling pass reads nothing of the state but `sampleIntervalMs`. -/
theorem samplingPass_trace_congr (inp : LoopInput) (st st' : LoopState)
    (h : st.sampleIntervalMs = st'.sampleIntervalMs) :
    (samplingPass inp st).2 = (samplingPass inp st').2 ∧
    (samplingPass inp st).1.sensorReady = (samplingPass inp st').1.sensorReady := by
  unfold samplingPass
  simp only [h, and_self]

theorem samplingPass_trace_ne_nil (inp : LoopInput) (st : LoopState) :
    (samplingPass inp st).2 ≠ [] := by
  unfold samplingPass report
  simp only
  split <;> simp [emitReading, emitError]

theorem samplingPass_lastReadTime (inp : LoopInput) (st : LoopState) :
    (samplingPass inp st).1.lastReadTime = st.lastReadTime := rfl

/-- In 32-bit arithmetic the elapsed time after the overflow reset is the
plain difference. -/
theorem elapsed_after_reset (currentTime lastReadTime : Nat) (hc : currentTime < U32)
    (hl : lastReadTime < U32) :
    (currentTime + U32 - min currentTime lastReadTime) % U32
      = currentTime - min currentTime lastReadTime := by
  unfold U32 at *
  omega

/-- The interval check as a two-way choice. -/
theorem intervalStep_eq (inp : LoopInput) (st : LoopState) (hc : inp.currentTime < U32)
    (hl : st.lastReadTime < U32) :
    intervalStep inp st
      = if st.sampleIntervalMs ≤ inp.currentTime - min inp.currentTime st.lastReadTime then
          samplingPass inp
            { sampleIntervalMs := st.sampleIntervalMs, lastReadTime := inp.currentTime,
              sensorReady := st.sensorReady || inp.intPinLow }
        else
          ({ sampleIntervalMs := st.sampleIntervalMs,
             lastReadTime := min inp.currentTime st.lastReadTime,
             sensorReady := st.sensorReady }, []) := by
  have he := elapsed_after_reset inp.currentTime st.lastReadTime hc hl
  unfold intervalStep
  simp only [Bool.or_true, if_true, ge_iff_le]
  by_cases hlt : inp.currentTime < st.lastReadTime
  · have hmin : min inp.currentTime st.lastReadTime = inp.currentTime :=
      Nat.min_eq_left (le_of_lt hlt)
    rw [hmin] at he ⊢
    simp only [hlt, if_true, he]
    split
    · cases hp : inp.intPinLow <;> simp
    · rfl
  · have hmin : min inp.currentTime st.lastReadTime = st.lastReadTime :=
      Nat.min_eq_right (not_lt.mp hlt)
    rw [hmin] at he ⊢
    simp only [hlt, if_false, he]
    split
    · cases hp : inp.intPinLow <;> simp
    · rfl

/-- The interval check makes the same decision and produces the same trace
whatever `sensorReady` and the interrupt pin are. -/
theorem intervalStep_ignores_ready (inp : LoopInput) (st : LoopState) (ready pin : Bool) :
    (intervalStep { inp with intPinLow := pin } { st with sensorReady := ready }).2
      = (intervalStep inp st).2 ∧
    (intervalStep { inp with intPinLow := pin } { st with sensorReady := ready }).1.lastReadTime
      = (intervalStep inp st).1.lastReadTime := by
  unfold intervalStep
  simp only [Bool.or_true, if_true]
  split_ifs <;> exact ⟨rfl, rfl⟩

/-- The command handling neither reads nor writes `sensorReady` and
`lastReadTime`. -/
theorem commandStep_ignores_ready (inp : LoopInput) (st : LoopState) (ready pin : Bool) :
    commandStep { inp with intPinLow := pin } { st with sensorReady := ready }
      = ({ (commandStep inp st).1 with sensorReady := ready }, (commandStep inp st).2) := by
  unfold commandStep
  cases hs : inp.serial with
  | none => rfl
  | some bytes =>
    simp only [hs]
    unfold handleCommand
    simp only
    split_ifs
    · rfl
    · rfl
    · cases rateInterval (inp.atof (List.drop 5 (cString (trimInput bytes)))) <;> rfl
    · rfl

end DecisionLemmas

/-- C20. In every call of `loop()` with 32-bit times: after the wrap-around
reset, which leaves `lastReadTime` at the smaller of itself and `currentTime`,
a sampling pass runs if and only if `currentTime - lastReadTime >=
sampleIntervalMs`; when it runs, `lastReadTime` becomes `currentTime`, and
when it does not, `lastReadTime` keeps its reset value. Changing `sensorReady`
and the interrupt pin changes neither the decision nor the trace nor the new
`lastReadTime`, for the interval check and for the whole of `loop()`. -/
theorem sampling_decision_ignores_sensorReady (inp : LoopInput) (st : LoopState)
    (ready pin : Bool) (hc : inp.currentTime < U32) (hl : st.lastReadTime < U32) :
    ((intervalStep inp st).2 ≠ []
      ↔ st.sampleIntervalMs ≤ inp.currentTime - min inp.currentTime st.lastReadTime) ∧
    (st.sampleIntervalMs ≤ inp.currentTime - min inp.currentTime st.lastReadTime →
      (intervalStep inp st).2 = (samplingPass inp st).2 ∧
      (intervalStep inp st).1.lastReadTime = inp.currentTime) ∧
    (¬ st.sampleIntervalMs ≤ inp.currentTime - min inp.currentTime st.lastReadTime →
      (intervalStep inp st).1.lastReadTime = min inp.currentTime st.lastReadTime) ∧
    (intervalStep { inp with intPinLow := pin } { st with sensorReady := ready }).2
      = (intervalStep inp st).2 ∧
    (loop { inp with intPinLow := pin } { st with sensorReady := ready }).2
      = (loop inp st).2 ∧
    (loop { inp with intPinLow := pin } { st with sensorReady := ready }).1.lastReadTime
      = (loop inp st).1.lastReadTime := by
  have heq := intervalStep_eq inp st hc hl
  have hloop := intervalStep_ignores_ready inp (commandStep inp st).1 ready pin
  refine ⟨?_, ?_, ?_, (intervalStep_ignores_ready inp st ready pin).1, ?_, ?_⟩
  · by_cases h : st.sampleIntervalMs ≤ inp.currentTime - min inp.currentTime st.lastReadTime
    · rw [heq, if_pos h]
      exact ⟨fun _ => h, fun _ => samplingPass_trace_ne_nil _ _⟩
    · rw [heq, if_neg h]
      exact ⟨fun hne => absurd rfl hne, fun h2 => absurd h2 h⟩
  · intro h
    rw [heq, if_pos h]
    exact ⟨(samplingPass_trace_congr inp _ st rfl).1, rfl⟩
  · intro h
    rw [heq, if_neg h]
  · unfold loop
    simp only [commandStep_ignores_ready]
    rw [hloop.1]
  · unfold loop
    simp only [commandStep_ignores_ready]
    exact hloop.2

/-- C20, in the initial state at time 1000 with the default period: a pass
runs, with `sensorReady` set and the pin low exactly as with both clear. -/
theorem sampling_decision_ignores_sensorReady_witness :
    (intervalStep sampleInput LoopState.init).2 = (samplingPass sampleInput LoopState.init).2 ∧
    (loop { sampleInput with intPinLow := true } { LoopState.init with sensorReady := true }).2
      = (loop sampleInput LoopState.init).2 :=
  ⟨((sampling_decision_ignores_sensorReady sampleInput LoopState.init true true (by decide)
      (by decide)).2.1 (by decide)).1,
    (sampling_decision_ignores_sensorReady sampleInput LoopState.init true true (by decide)
      (by decide)).2.2.2.2.1⟩

/-! ### Binary32 rounding of the library functions -/

section Binary32Lemmas

theorem atofDecimal_rounded_text :
    atofDecimal "0.2500000001".toList = 2500000001 / 10000000000 := by
  have h1 : List.takeWhile Char.isDigit "0.2500000001".toList = "0".toList := by decide
  have h2 : List.dropWhile Char.isDigit "0.2500000001".toList
      = Char.ofNat 46 :: "2500000001".toList := by decide
  have h3 : List.takeWhile Char.isDigit "2500000001".toList = "2500000001".toList := by decide
  have h4 : List.foldl (fun n d => 10 * n + (d.toNat - 48)) 0 "0".toList = 0 := by decide
  have h5 : List.foldl (fun n d => 10 * n + (d.toNat - 48)) 0 "2500000001".toList
      = 2500000001 := by decide
  have h7 : "2500000001".toList.length = 10 := by decide
  unfold atofDecimal
  rw [h1, h2]
  dsimp only
  rw [if_pos rfl, h3, h4, h5, h7]
  norm_num

theorem log_rounded_text : Int.log 2 (2500000001 / 10000000000 : ℚ) = -2 := by
  have hpos : (0 : ℚ) < 2500000001 / 10000000000 := by norm_num
  have h1 : (-2 : ℤ) ≤ Int.log 2 (2500000001 / 10000000000 : ℚ) := by
    rw [← Int.zpow_le_iff_le_log (by decide) hpos]
    norm_num
  have h2 : Int.log 2 (2500000001 / 10000000000 : ℚ) < -1 := by
    rw [← Int.lt_zpow_iff_log_lt (by decide) hpos]
    norm_num
  omega

/-- The decimal `0.2500000001` converts to the binary32 number `0.25`. -/
theorem roundBinary32_rounded_text :
    roundBinary32 (2500000001 / 10000000000) = 1 / 4 := by
  unfold roundBinary32
  rw [if_neg (by norm_num), abs_of_pos (by norm_num), log_rounded_text]
  have hfloor : ⌊(2500000001 / 10000000000 : ℚ) * 2 ^ (23 - (-2) : ℤ) + 1 / 2⌋ = 8388608 := by
    rw [Int.floor_eq_iff]
    norm_num
  rw [hfloor]
  norm_num

theorem atofBinary32_rounded_text : atofBinary32 "0.2500000001".toList = 1 / 4 := by
  unfold atofBinary32
  rw [atofDecimal_rounded_text, roundBinary32_rounded_text]

theorem expBinary32_zero : expBinary32 0 = 1 := by
  unfold expBinary32
  rw [if_neg (by norm_num), if_pos (by norm_num)]

theorem expBinary32_tiny : expBinary32 (-(1 / 2 ^ 100)) = 1 := by
  unfold expBinary32
  rw [if_neg (by norm_num), if_pos (by norm_num)]

theorem expBinary32_far : expBinary32 (-200) = 0 := by
  unfold expBinary32
  rw [if_pos (by norm_num)]

theorem roundBinary32_nonneg (q : ℚ) (hq : 0 ≤ q) : 0 ≤ roundBinary32 q := by
  unfold roundBinary32
  split
  · exact le_refl _
  · apply div_nonneg
    · have h : (0 : ℚ) ≤ q * 2 ^ (23 - Int.log 2 |q|) + 1 / 2 :=
        add_nonneg (mul_nonneg hq (le_of_lt (zpow_pos (by norm_num) _))) (by norm_num)
      exact_mod_cast Int.floor_nonneg.mpr h
    · exact le_of_lt (zpow_pos (by norm_num) _)

/-- The binary32 model of `exp` never returns a negative number. -/
theorem expBinary32_nonneg (x : ℚ) : 0 ≤ expBinary32 x := by
  unfold expBinary32
  split
  · exact le_refl _
  · split
    · exact zero_le_one
    · exact roundBinary32_nonneg _ (Even.pow_nonneg (by decide) _)

theorem softmaxMax_two {α : Type} [LinearOrderedField α] (f : Nat → α) :
    softmaxMax f 2 = max (f 0) (f 1) :=
  softmaxMax_succ_succ f 0

theorem softmaxMax_three {α : Type} [LinearOrderedField α] (f : Nat → α) :
    softmaxMax f 3 = max (max (f 0) (f 1)) (f 2) := by
  rw [softmaxMax_succ_succ f 1]
  exact congrArg (fun m => max m (f 2)) (softmaxMax_two f)

theorem argmax_two {α : Type} [LinearOrderedField α] (f : Nat → α) :
    argmax f 2 = if f 1 > f 0 then 1 else 0 := by
  unfold argmax
  rw [argmaxScan_succ_succ f 0]
  show (if f 1 > f 0 then ((1 : Nat), f 1) else (0, f 0)).1 = _
  split <;> rfl

/-- When no cell exceeds cell 0 the scan returns 0. -/
theorem argmax_eq_zero {α : Type} [LinearOrderedField α] (f : Nat → α) (n : Nat) (hn : 0 < n)
    (h : ∀ j, j < n → f j ≤ f 0) : argmax f n = 0 := by
  by_contra hne
  have hpos : 0 < argmax f n := Nat.pos_of_ne_zero hne
  have h1 := (argmax_first_max f n hn).2 0 hpos
  exact absurd h1 (not_lt.mpr (h _ (argmax_lt f n hn)))

end Binary32Lemmas

/-- C3, refuted as stated: on the logits `[0, 2^-100]` the binary32 `exp`
returns 1 for both entries, the probabilities tie and the scan of the softmax
output returns index 0, while the scan of the logits returns index 1. -/
theorem rounded_softmax_changes_argmax :
    argmax (softmax expBinary32 closeLogits 2) 2 = 0 ∧ argmax closeLogits 2 = 1 := by
  have hM : softmaxMax closeLogits 2 = 1 / 2 ^ 100 := by
    rw [softmaxMax_two]
    norm_num [closeLogits]
  have h0 : softmax expBinary32 closeLogits 2 0 = 1 / softmaxSum expBinary32 closeLogits 2 := by
    rw [softmax_apply, if_pos (by decide), hM]
    have : closeLogits 0 - 1 / 2 ^ 100 = -(1 / 2 ^ 100) := by norm_num [closeLogits]
    rw [this, expBinary32_tiny]
  have h1 : softmax expBinary32 closeLogits 2 1 = 1 / softmaxSum expBinary32 closeLogits 2 := by
    rw [softmax_apply, if_pos (by decide), hM]
    have : closeLogits 1 - 1 / 2 ^ 100 = 0 := by norm_num [closeLogits]
    rw [this, expBinary32_zero]
  constructor
  · rw [argmax_two, h0, h1, if_neg (lt_irrefl _)]
  · rw [argmax_two, if_pos (by norm_num [closeLogits])]

/-- C19, refuted as stated: on the logits `[0, 200]` the binary32 `exp`
underflows to 0 for the first entry, whose probability is exactly 0 and so not
in `(0, 1]`. -/
theorem rounded_softmax_probability_zero :
    softmax expBinary32 farLogits 2 0 = 0 ∧ ¬ 0 < softmax expBinary32 farLogits 2 0 := by
  have hM : softmaxMax farLogits 2 = 200 := by
    rw [softmaxMax_two]
    norm_num [farLogits]
  have h0 : softmax expBinary32 farLogits 2 0 = 0 := by
    rw [softmax_apply, if_pos (by decide), hM]
    have : farLogits 0 - 200 = -200 := by norm_num [farLogits]
    rw [this, expBinary32_far, zero_div]
  exact ⟨h0, by rw [h0]; exact lt_irrefl _⟩

/-- C19, amended. For every non-empty logit vector and every function
standing for `exp` that returns 1 at 0 and no negative number, as the exact
exponential and its binary32 rounding both do, the denominator computed by
`softmax` is at least 1, since the maximal entry contributes `exp(0) = 1` and
no term is negative; the division is therefore never by zero and every
resulting probability lies in `[0, 1]`. When `exp` is strictly positive, as
the exact real exponential is, every probability lies in `(0, 1]`. -/
theorem softmax_probability_bounds {α : Type} [LinearOrderedField α] (exp : α → α)
    (h0 : exp 0 = 1) (hnn : ∀ x, 0 ≤ exp x) (input : Nat → α) (length : Nat)
    (hn : 0 < length) :
    1 ≤ softmaxSum exp input length ∧
    softmaxSum exp input length ≠ 0 ∧
    (∀ i, i < length →
      0 ≤ softmax exp input length i ∧ softmax exp input length i ≤ 1) ∧
    ((∀ x, 0 < exp x) → ∀ i, i < length → 0 < softmax exp input length i) := by
  have hterm : ∀ i, i < length →
      exp (input i - softmaxMax input length) ≤ softmaxSum exp input length := by
    intro i hi
    rw [softmaxSum_eq]
    exact Finset.single_le_sum
      (f := fun j => exp (input j - softmaxMax input length))
      (fun j _ => hnn _) (Finset.mem_range.mpr hi)
  have hge : 1 ≤ softmaxSum exp input length := by
    obtain ⟨j, hj, hmax⟩ := specMax_attained input length hn
    have h := hterm j hj
    rw [softmaxMax_eq_specMax, hmax, sub_self, h0] at h
    exact h
  have hpos : 0 < softmaxSum exp input length := lt_of_lt_of_le one_pos hge
  refine ⟨hge, ne_of_gt hpos, ?_, ?_⟩
  · intro i hi
    rw [softmax_apply, if_pos hi]
    exact ⟨div_nonneg (hnn _) (le_of_lt hpos), (div_le_one hpos).mpr (hterm i hi)⟩
  · intro hp i hi
    rw [softmax_apply, if_pos hi]
    exact div_pos (hp _) hpos

/-- C19, amended, at the logits `[0, 200]` with the binary32 `exp`: the
denominator is at least 1 and the first probability, 0, lies in `[0, 1]`. -/
theorem softmax_probability_bounds_witness :
    1 ≤ softmaxSum expBinary32 farLogits 2 ∧
    0 ≤ softmax expBinary32 farLogits 2 0 ∧ softmax expBinary32 farLogits 2 0 ≤ 1 :=
  ⟨(softmax_probability_bounds expBinary32 expBinary32_zero expBinary32_nonneg farLogits 2
      (by decide)).1,
    (softmax_probability_bounds expBinary32 expBinary32_zero expBinary32_nonneg farLogits 2
      (by decide)).2.2.1 0 (by decide)⟩

/-! ### The returned class and ties -/

/-- The logits of a `biasModel` are its output biases. -/
theorem biasModel_logits {α : Type} [LinearOrderedField α] (b input_data output_data
    stack : Nat → α) (o : Nat) (ho : o < 3) :
    outputPass (biasModel b) (hiddenPass (biasModel b) input_data stack).1 output_data o
      = b o := by
  rw [outputPass_apply]
  have h3 : (biasModel b).output_size = 3 := rfl
  rw [h3, if_pos ho]
  simp [specLogit, biasModel, NeuralNetwork.new]

/-- C2, refuted as stated: on a model whose logits are `[-2^-100, 0, 0]` the
logits at indices 1 and 2 are exactly equal and maximal, yet the binary32
`exp` returns 1 for all three entries, the three probabilities tie and
`predict` returns index 0, not the lower index 1 of the two. -/
theorem rounded_tie_returns_earlier_index :
    (predict expBinary32 (biasModel tieLogits) (fun _ => 0) (fun _ => 0)
      (fun _ => 0)).best_class = 0 ∧
    outputPass (biasModel tieLogits)
      (hiddenPass (biasModel tieLogits) (fun _ => 0) (fun _ => 0)).1 (fun _ => 0) 0
        = -(1 / 2 ^ 100) ∧
    outputPass (biasModel tieLogits)
      (hiddenPass (biasModel tieLogits) (fun _ => 0) (fun _ => 0)).1 (fun _ => 0) 1 = 0 ∧
    outputPass (biasModel tieLogits)
      (hiddenPass (biasModel tieLogits) (fun _ => 0) (fun _ => 0)).1 (fun _ => 0) 2 = 0 := by
  have hl : ∀ o, o < 3 →
      outputPass (biasModel tieLogits)
        (hiddenPass (biasModel tieLogits) (fun _ => 0) (fun _ => 0)).1 (fun _ => 0) o
        = tieLogits o :=
    fun o ho => biasModel_logits tieLogits _ _ _ o ho
  refine ⟨?_, by rw [hl 0 (by decide)]; rfl, by rw [hl 1 (by decide)]; rfl,
    by rw [hl 2 (by decide)]; rfl⟩
  have hM : softmaxMax tieLogits 3 = 0 := by
    rw [softmaxMax_three]
    norm_num [tieLogits]
  have hp : ∀ o, o < 3 →
      softmax expBinary32
        (outputPass (biasModel tieLogits)
          (hiddenPass (biasModel tieLogits) (fun _ => 0) (fun _ => 0)).1 (fun _ => 0)) 3 o
        = 1 / softmaxSum expBinary32 tieLogits 3 := by
    intro o ho
    rw [softmax_congr expBinary32 _ tieLogits 3 (by decide) hl o ho, softmax_apply, if_pos ho,
      hM, sub_zero]
    have ho3 : o = 0 ∨ o = 1 ∨ o = 2 := by omega
    rcases ho3 with rfl | rfl | rfl
    · have : tieLogits 0 = -(1 / 2 ^ 100) := rfl
      rw [this, expBinary32_tiny]
    · have : tieLogits 1 = 0 := rfl
      rw [this, expBinary32_zero]
    · have : tieLogits 2 = 0 := rfl
      rw [this, expBinary32_zero]
  show argmax (softmax expBinary32
    (outputPass (biasModel tieLogits)
      (hiddenPass (biasModel tieLogits) (fun _ => 0) (fun _ => 0)).1 (fun _ => 0)) 3) 3 = 0
  apply argmax_eq_zero _ 3 (by decide)
  intro j hj
  rw [hp j hj, hp 0 (by decide)]

/-- C2, amended. With the arithmetic and `exp` read over the reals: for every
model with `output_size >= 1` and every input, the index returned by `predict`
is the first maximum of the probability vector (no probability exceeds the one
at the returned index and every earlier one is strictly smaller); it is also
the first maximum of the logits, the index the scan returns on the logits
themselves. In particular, when two output logits are exactly equal and
maximal, all others being smaller, the lower index is returned. -/
theorem predict_first_max (nn : NeuralNetwork ℝ) (input_data output_data stack : Nat → ℝ)
    (ho : 1 ≤ nn.output_size) :
    (∀ j, j < nn.output_size →
      (predict Real.exp nn input_data output_data stack).output_data j
        ≤ (predict Real.exp nn input_data output_data stack).output_data
            (predict Real.exp nn input_data output_data stack).best_class) ∧
    (∀ j, j < (predict Real.exp nn input_data output_data stack).best_class →
      (predict Real.exp nn input_data output_data stack).output_data j
        < (predict Real.exp nn input_data output_data stack).output_data
            (predict Real.exp nn input_data output_data stack).best_class) ∧
    (predict Real.exp nn input_data output_data stack).best_class
      = argmax (outputPass nn (hiddenPass nn input_data stack).1 output_data) nn.output_size ∧
    (∀ j, j < nn.output_size →
      outputPass nn (hiddenPass nn input_data stack).1 output_data j
        ≤ outputPass nn (hiddenPass nn input_data stack).1 output_data
            (predict Real.exp nn input_data output_data stack).best_class) ∧
    (∀ j, j < (predict Real.exp nn input_data output_data stack).best_class →
      outputPass nn (hiddenPass nn input_data stack).1 output_data j
        < outputPass nn (hiddenPass nn input_data stack).1 output_data
            (predict Real.exp nn input_data output_data stack).best_class) ∧
    (∀ a b, a < b → b < nn.output_size →
      outputPass nn (hiddenPass nn input_data stack).1 output_data a
        = outputPass nn (hiddenPass nn input_data stack).1 output_data b →
      (∀ j, j < nn.output_size → j ≠ a → j ≠ b →
        outputPass nn (hiddenPass nn input_data stack).1 output_data j
          < outputPass nn (hiddenPass nn input_data stack).1 output_data a) →
      (predict Real.exp nn input_data output_data stack).best_class = a) := by
  have hn : 0 < nn.output_size := by omega
  have hfm := argmax_first_max
    (softmax Real.exp (outputPass nn (hiddenPass nn input_data stack).1 output_data)
      nn.output_size) nn.output_size hn
  have hk : (predict Real.exp nn input_data output_data stack).best_class
      = argmax (outputPass nn (hiddenPass nn input_data stack).1 output_data) nn.output_size :=
    argmax_congr _ _ nn.output_size hn
      (fun i j hi hj => softmax_lt_iff Real.exp Real.exp_pos Real.exp_strictMono _
        nn.output_size i j hi hj)
  have hlog := argmax_first_max
    (outputPass nn (hiddenPass nn input_data stack).1 output_data) nn.output_size hn
  refine ⟨hfm.1, hfm.2, hk, ?_, ?_, ?_⟩
  · rw [hk]
    exact hlog.1
  · rw [hk]
    exact hlog.2
  · intro a b hab hb heq hothers
    rw [hk]
    refine first_max_unique
      (outputPass nn (hiddenPass nn input_data stack).1 output_data) nn.output_size _ a
      (argmax_lt _ _ hn) (by omega) hlog.1 hlog.2 ?_ ?_
    · intro j hj
      by_cases hja : j = a
      · rw [hja]
      · by_cases hjb : j = b
        · rw [hjb, heq]
        · exact le_of_lt (hothers j hj hja hjb)
    · intro j hj
      exact hothers j (by omega) (by omega) (by omega)

/-- C2, amended, at a model whose logits are `[0, 5, 5]`: the two maximal
logits are at indices 1 and 2 and class 1 is returned. -/
theorem predict_first_max_witness :
    1 ≤ (biasModel (fun o => if o = 0 then (0 : ℝ) else 5)).output_size ∧
    (predict Real.exp (biasModel (fun o => if o = 0 then (0 : ℝ) else 5))
      (fun _ => 0) (fun _ => 0) (fun _ => 0)).best_class = 1 :=
  ⟨by decide,
    (predict_first_max (biasModel (fun o => if o = 0 then (0 : ℝ) else 5))
      (fun _ => 0) (fun _ => 0) (fun _ => 0) (by decide)).2.2.2.2.2 1 2 (by decide) (by decide)
      (by rw [biasModel_logits _ _ _ _ 1 (by decide), biasModel_logits _ _ _ _ 2 (by decide)]
          simp)
      (by
        intro j hj hj1 hj2
        have h3 : (biasModel (fun o => if o = 0 then (0 : ℝ) else 5)).output_size = 3 := rfl
        rw [h3] at hj
        have hj0 : j = 0 := by omega
        subst hj0
        rw [biasModel_logits _ _ _ _ 0 (by decide), biasModel_logits _ _ _ _ 1 (by decide)]
        norm_num)⟩

/-! ### A rate that rounds to a supported one -/

/-- C11, refuted as stated: the value of the command `RATE:0.2500000001` is
none of the six supported rates, yet its conversion to `float` is `0.25`, and
`loop()` changes `sampleIntervalMs` from 1000 to 4000 and replies with the
status record, not with an error. -/
theorem rounded_rate_accepted :
    atofDecimal "0.2500000001".toList = 2500000001 / 10000000000 ∧
    rateInterval (2500000001 / 10000000000) = none ∧
    LoopState.init.sampleIntervalMs = 1000 ∧
    (loop roundedRateInput LoopState.init).1.sampleIntervalMs = 4000 ∧
    (commandStep roundedRateInput LoopState.init).2
      = [Effect.print "\x7b\"status\":\"Rate set to ", Effect.printFloat (1 / 4) 2,
         Effect.println " Hz\"\x7d", Effect.flush] := by
  have hcmd : commandStep roundedRateInput LoopState.init
      = ({ LoopState.init with sampleIntervalMs := 4000 },
         [Effect.print "\x7b\"status\":\"Rate set to ", Effect.printFloat (1 / 4) 2,
          Effect.println " Hz\"\x7d", Effect.flush]) := by
    have h1 : cString (trimInput "RATE:0.2500000001".toList) = "RATE:0.2500000001".toList := by
      decide
    have h2 : List.drop 5 "RATE:0.2500000001".toList = "0.2500000001".toList := by decide
    have hr : rateInterval (1 / 4) = some 4000 := by simp [rateInterval]
    show handleCommand atofBinary32 LoopState.init (trimInput "RATE:0.2500000001".toList) = _
    unfold handleCommand
    simp only [h1, h2]
    rw [if_neg (by decide), if_neg (by decide), if_pos (by decide), atofBinary32_rounded_text,
      hr]
  refine ⟨atofDecimal_rounded_text, ?_, rfl, ?_, ?_⟩
  · norm_num [rateInterval]
  · have hloop := intervalStep_sampleIntervalMs roundedRateInput
      (commandStep roundedRateInput LoopState.init).1
    have hl : (loop roundedRateInput LoopState.init).1.sampleIntervalMs
        = (commandStep roundedRateInput LoopState.init).1.sampleIntervalMs := hloop
    rw [hl, hcmd]
  · rw [hcmd]

end AS7341
